import Mathlib

/-!
# Voronoi partitioning under the Chebyshev norm

A shallow embedding of `src/main.cpp` (class `Point`, `RandomPoint`, class
`Voronoi`, `GetPointClusters`, `ApplyFuncToClusters`, `calc_stddev`,
`calc_median`) and of `src/tools.hpp`.

Modelling conventions.
* A `float` value is a rational number. The definitions without a suffix read
  `float` arithmetic as exact; the definitions with the suffix `F` apply the
  rounding `fl` of `float` arithmetic to every sum, difference and quotient,
  `round_f32` being the rounding of IEEE binary32 (with `fl` the identity they
  are the exact ones).
* A division by a zero divisor yields a non-finite value in the source; the
  embedding returns `none` there, and `some` of the exact quotient otherwise.
* `size_t` and `int` counters are natural numbers (no wrap-around).
* An out-of-range `operator[]` on a `std::vector` is `none`.
* The library functions `sqrtf` and `std::nth_element` and the `operator<<` of
  the element type are parameters; a random generator is the stream of the
  values drawn from it, and the `while (true)` loop of `RandomPoint` is bounded
  by a fuel argument.
* The worker threads are run one after another; the theorems on
  `ApplyFuncToClusters` and on the merge step also cover the other orders.
-/

namespace VoronoiSpec

/-- The class `Point<Dim>`: the member `data_`, a `std::array<float, Dim>`. -/
structure Point (Dim : Nat) where
  data_ : Fin Dim → ℚ

/-- One iteration of the loop of `Point::Norm`:
`float y = fabsf(x); if (y > max) max = y;`. -/
def Point.NormStep (max x : ℚ) : ℚ :=
  let y := |x|
  if y > max then y else max

/-- The method `Point::Norm`: `max` starts at `0` and the loop runs over `data_`
in order. -/
def Point.Norm {Dim : Nat} (p : Point Dim) : ℚ :=
  (List.ofFn p.data_).foldl Point.NormStep 0

/-- The method `Point::operator-=`, on a copy: `data_[i] -= other[i]` for every
`i < Dim`. -/
def Point.sub {Dim : Nat} (p other : Point Dim) : Point Dim :=
  ⟨fun i => p.data_ i - other.data_ i⟩

/-- The method `Point::operator+=`, on a copy: `data_[i] += other[i]` for every
`i < Dim`. -/
def Point.add {Dim : Nat} (p other : Point Dim) : Point Dim :=
  ⟨fun i => p.data_ i + other.data_ i⟩

/-- The method `Point::operator/` at `T = size_t`: every coordinate is divided
by `val`; `none` when `val` is zero (the quotients are not finite). -/
def Point.div {Dim : Nat} (p : Point Dim) (val : Nat) : Option (Point Dim) :=
  if val = 0 then none else some ⟨fun i => p.data_ i / (val : ℚ)⟩

/-- The method `Point::Dist`: `other -= *this; return other.Norm();`. -/
def Point.Dist {Dim : Nat} (p other : Point Dim) : ℚ :=
  (other.sub p).Norm

/-- The function `ZeroPoint`. -/
def ZeroPoint (Dim : Nat) : Point Dim :=
  ⟨fun _ => 0⟩

/-- The constant `std::numeric_limits<float>::max()`, `(2^24 - 1) * 2^104`. -/
def FLT_MAX : ℚ := 340282346638528859811704183484516925440

/-- The class `Voronoi`: the member `points_` (the generator pointer `rd_` is
never read after construction). -/
structure Voronoi (Dim : Nat) where
  points_ : List (Point Dim)

/-- The loop of `Voronoi::FindNNIndex` from index `i` on, over the seeds not yet
visited, with the current `min_index` and `min_dist`. -/
def Voronoi.FindNNLoop {Dim : Nat} (point : Point Dim) :
    List (Point Dim) → Nat → Nat → ℚ → Nat
  | [], _, min_index, _ => min_index
  | s :: rest, i, min_index, min_dist =>
      let dist := s.Dist point
      if dist < min_dist then Voronoi.FindNNLoop point rest (i + 1) i dist
      else Voronoi.FindNNLoop point rest (i + 1) min_index min_dist

/-- The method `Voronoi::FindNNIndex`. -/
def Voronoi.FindNNIndex {Dim : Nat} (v : Voronoi Dim) (point : Point Dim) : Nat :=
  Voronoi.FindNNLoop point v.points_ 0 0 FLT_MAX

/-- The alias `ClusterT<Dim>`, a `std::vector<Point<Dim>>`. -/
abbrev ClusterT (Dim : Nat) := List (Point Dim)

/-- The function `RandomPoint`. The generator `*rd` under
`std::uniform_real_distribution<float> distr(-1, 1)` is the stream `rd` of the
values the successive calls `distr(*rd)` return; one iteration of the
`while (true)` loop reads `Dim` of them. `fuel` bounds the number of
iterations: `none` when the loop has not left after `fuel` of them. The
result carries the generator as the call leaves it. -/
def RandomPoint (Dim : Nat) : Nat → (Nat → ℚ) → Option (Point Dim × (Nat → ℚ))
  | 0, _ => none
  | fuel + 1, rd =>
      let point : Point Dim := ⟨fun i => rd i⟩
      let rd1 : Nat → ℚ := fun k => rd (k + Dim)
      if point.Norm ≤ 1 then some (point, rd1) else RandomPoint Dim fuel rd1

/-- The loop of the constructor of `Voronoi`: `point = RandomPoint<Dim>(rd)` for
each of the `num_points` elements of `points_`. -/
def Voronoi.fill (Dim fuel : Nat) : Nat → (Nat → ℚ) → Option (List (Point Dim))
  | 0, _ => some []
  | num_points + 1, rd =>
      match RandomPoint Dim fuel rd with
      | none => none
      | some (point, rd1) =>
          match Voronoi.fill Dim fuel num_points rd1 with
          | none => none
          | some rest => some (point :: rest)

/-- The constructor `Voronoi(num_points, rd)`. -/
def Voronoi.construct (Dim fuel num_points : Nat) (rd : Nat → ℚ) : Option (Voronoi Dim) :=
  (Voronoi.fill Dim fuel num_points rd).map Voronoi.mk

/-- The body of a worker thread of `GetPointClusters`: `work_amount` times, a
point is drawn and appended to `my_res_part` with its `FindNNIndex`. -/
def GetPointClusters.worker {Dim : Nat} (fuel : Nat) (voronoi : Voronoi Dim) :
    Nat → (Nat → ℚ) → List (Point Dim × Nat) → Option (List (Point Dim × Nat))
  | 0, _, my_res_part => some my_res_part
  | work_amount + 1, rd, my_res_part =>
      match RandomPoint Dim fuel rd with
      | none => none
      | some (point, rd1) =>
          GetPointClusters.worker fuel voronoi work_amount rd1
            (my_res_part ++ [(point, voronoi.FindNNIndex point)])

/-- The worker threads of `GetPointClusters`, for the worker indices of the
list: worker `i` fills `results[i]`, drawing from its own generator
`worker_rd i`. All workers are joined before `results` is read. -/
def GetPointClusters.spawn {Dim : Nat} (fuel : Nat) (voronoi : Voronoi Dim)
    (work_amount : Nat) (worker_rd : Nat → Nat → ℚ) :
    List Nat → Option (List (List (Point Dim × Nat)))
  | [] => some []
  | i :: rest =>
      match GetPointClusters.worker fuel voronoi work_amount (worker_rd i) [] with
      | none => none
      | some my_res_part =>
          match GetPointClusters.spawn fuel voronoi work_amount worker_rd rest with
          | none => none
          | some results => some (my_res_part :: results)

/-- The statement `work_result[nn].push_back(point)` of the merge loop. -/
def GetPointClusters.push {Dim : Nat} (work_result : List (ClusterT Dim))
    (e : Point Dim × Nat) : Option (List (ClusterT Dim)) :=
  match work_result[e.2]? with
  | none => none
  | some cluster => some (work_result.set e.2 (cluster ++ [e.1]))

/-- The merge step of `GetPointClusters`: `work_result(voronoi_size)` and the
two nested loops over `results`. -/
def GetPointClusters.merge {Dim : Nat} (voronoi_size : Nat)
    (results : List (List (Point Dim × Nat))) : Option (List (ClusterT Dim)) :=
  results.foldlM (fun work_result worker_result =>
    worker_result.foldlM GetPointClusters.push work_result) (List.replicate voronoi_size [])

/-- The function `GetPointClusters`. `hardware_concurrency` is the value of
`std::thread::hardware_concurrency()`, `rd` the generator the seeds are drawn
from and `worker_rd i` the generator of worker `i`. -/
def GetPointClusters (Dim fuel hardware_concurrency : Nat) (rd : Nat → ℚ)
    (worker_rd : Nat → Nat → ℚ) (voronoi_size point_cloud_size : Nat) :
    Option (List (ClusterT Dim)) :=
  match Voronoi.construct Dim fuel voronoi_size rd with
  | none => none
  | some voronoi =>
      let num_workers := hardware_concurrency
      match GetPointClusters.spawn fuel voronoi (point_cloud_size / num_workers) worker_rd
          (List.range num_workers) with
      | none => none
      | some results => GetPointClusters.merge voronoi_size results

/-- The bounds `begin` and `end` of worker `i` of `ApplyFuncToClusters`, for
`size = clusters.size()`. -/
def ApplyFuncToClusters.bounds (size num_workers i : Nat) : Nat × Nat :=
  let step := size / num_workers
  (i * step, if i + 1 = num_workers then size else (i + 1) * step)

/-- The values `cluster_ix` takes in the loop of worker `i`. -/
def ApplyFuncToClusters.workerLoop (size num_workers i : Nat) : List Nat :=
  let be := ApplyFuncToClusters.bounds size num_workers i
  List.range' be.1 (be.2 - be.1)

/-- The statement `result[cluster_ix] = function(clusters[cluster_ix])`. -/
def ApplyFuncToClusters.assign {Dim : Nat} {β : Type} (function : ClusterT Dim → β)
    (clusters : List (ClusterT Dim)) (result : List β) (cluster_ix : Nat) :
    Option (List β) :=
  match clusters[cluster_ix]? with
  | none => none
  | some cluster =>
      if cluster_ix < result.length then some (result.set cluster_ix (function cluster))
      else none

/-- The assignments of all workers of `ApplyFuncToClusters`, worker after worker
in the order the threads are created. -/
def ApplyFuncToClusters.writes (size num_workers : Nat) : List Nat :=
  (List.range num_workers).flatMap (ApplyFuncToClusters.workerLoop size num_workers)

/-- The assignments of the workers performed in the order `sched`, on
`result(clusters.size())`, whose elements start out as `init`. -/
def ApplyFuncToClusters.run {Dim : Nat} {β : Type} (init : β) (function : ClusterT Dim → β)
    (clusters : List (ClusterT Dim)) (sched : List Nat) : Option (List β) :=
  sched.foldlM (ApplyFuncToClusters.assign function clusters)
    (List.replicate clusters.length init)

/-- The function `ApplyFuncToClusters`, the workers run one after another.
`num_workers` is the value of `std::thread::hardware_concurrency()`, `init` the
value-initialised element of `result`; `none` for the division by zero of
`clusters.size() / num_workers`. -/
def ApplyFuncToClusters {Dim : Nat} {β : Type} (init : β) (num_workers : Nat)
    (clusters : List (ClusterT Dim)) (function : ClusterT Dim → β) : Option (List β) :=
  if num_workers = 0 then none
  else ApplyFuncToClusters.run init function clusters
    (ApplyFuncToClusters.writes clusters.length num_workers)

/-- The loop `center += point / size` of `calc_stddev` and `calc_median`. -/
def centerLoop {Dim : Nat} (size : Nat) : List (Point Dim) → Point Dim → Option (Point Dim)
  | [], center => some center
  | point :: rest, center =>
      match point.div size with
      | none => none
      | some q => centerLoop size rest (center.add q)

/-- The loop `stddev += (dist * dist) / size` of `calc_stddev`; `none` when
`size` is zero (the quotient is not finite). -/
def calc_stddev.sumLoop {Dim : Nat} (size : Nat) (center : Point Dim) :
    List (Point Dim) → ℚ → Option ℚ
  | [], stddev => some stddev
  | point :: rest, stddev =>
      let dist := point.Dist center
      if size = 0 then none
      else calc_stddev.sumLoop size center rest (stddev + (dist * dist) / (size : ℚ))

/-- The lambda `calc_stddev` of `main`. The library function `sqrtf` is a
parameter. -/
def calc_stddev {Dim : Nat} (sqrtf : ℚ → ℚ) (cluster : ClusterT Dim) : Option ℚ :=
  let size := cluster.length
  match centerLoop size cluster (ZeroPoint Dim) with
  | none => none
  | some center =>
      match calc_stddev.sumLoop size center cluster 0 with
      | none => none
      | some stddev => some (sqrtf stddev)

/-- The lambda `calc_median` of `main`. The library function
`std::nth_element` is a parameter: `nth_element dists n` is the vector `dists`
as the call `std::nth_element(dists.begin(), dists.begin() + n, dists.end())`
leaves it. `none` also for an out-of-range `dists[dists.size() / 2]`. -/
def calc_median {Dim : Nat} (nth_element : List ℚ → Nat → List ℚ) (cluster : ClusterT Dim) :
    Option ℚ :=
  if cluster.isEmpty then some 0
  else
    let size := cluster.length
    match centerLoop size cluster (ZeroPoint Dim) with
    | none => none
    | some center =>
        let dists := cluster.map (fun point => point.Dist center)
        (nth_element dists (dists.length / 2))[dists.length / 2]?

/-- The component-wise mean of the points of a cluster: the centroid as the
specification words it. -/
def centroid {Dim : Nat} (cluster : ClusterT Dim) : Point Dim :=
  ⟨fun i => (cluster.map (fun p => p.data_ i)).sum / (cluster.length : ℚ)⟩

/-- What the C++ standard leaves of a call
`std::nth_element(first, first + n, last)` with `n` inside the range: the
range is rearranged (a permutation), no element before position `n` is above
the element at position `n`, and no element from position `n` on is below it
or below an element before it. -/
def NthElementPost (nth_element : List ℚ → Nat → List ℚ) : Prop :=
  ∀ (dists : List ℚ) (n : Nat), n < dists.length →
    (nth_element dists n).Perm dists ∧
      ∀ i j x y, i ≤ n → n ≤ j → (nth_element dists n)[i]? = some x →
        (nth_element dists n)[j]? = some y → x ≤ y

/-- One function meeting `NthElementPost`: the full ascending sort. -/
def nth_element_by_sort (dists : List ℚ) (_n : Nat) : List ℚ :=
  dists.insertionSort (· ≤ ·)

/-- The loop of `operator<<` for `std::vector<T>` (`tools.hpp`), from the
iterator `it` on: `stream << *it`, then `stream << ", "` when `std::next(it)`
is not `vec.end()`. The stream is the text written to it so far, `render` the
`operator<<` of `T`. -/
def operator_shl.loop {T : Type} (render : T → String) : List T → String → String
  | [], stream => stream
  | x :: rest, stream =>
      let stream1 := stream ++ render x
      if rest.isEmpty then operator_shl.loop render rest stream1
      else operator_shl.loop render rest (stream1 ++ ", ")

/-- The function `operator<<(std::ostream&, const std::vector<T>&)` of
`tools.hpp`. -/
def operator_shl {T : Type} (render : T → String) (stream : String) (vec : List T) : String :=
  operator_shl.loop render vec (stream ++ "\x7b") ++ "\x7d"

/-- Rounding of `x` to the nearest integer multiple of `q`, a tie going to the
even multiple. -/
def roundToMultiple (q x : ℚ) : ℚ :=
  let n : ℤ := ⌊x / q⌋
  let r : ℚ := x / q - n
  let m : ℤ := if r < 1 / 2 then n else if 1 / 2 < r then n + 1
    else if n % 2 = 0 then n else n + 1
  m * q

/-- Rounding of a real number to the nearest `float` (IEEE binary32, ties to
even), the rounding every `float` operation of the source applies to its
exact result: `x` is rounded to a multiple of the spacing `2^(e - 23)` of the
`float` values of its binade `e`, which is not below that of the subnormal
numbers. A result of magnitude above `FLT_MAX` stands for an infinity; NaN is
not modelled. -/
def round_f32 (x : ℚ) : ℚ :=
  roundToMultiple ((2 : ℚ) ^ (max (Int.log 2 |x|) (-126) - 23)) x

/-- What the scan of `FindNNIndex` needs of the rounding `fl` of `float`
arithmetic: a number of magnitude at most `FLT_MAX + 1` rounds to a finite
`float`, of magnitude at most `FLT_MAX` (rounding to nearest overflows from
`FLT_MAX + 2^103` on). -/
def FiniteRounding (fl : ℚ → ℚ) : Prop :=
  ∀ x : ℚ, |x| ≤ FLT_MAX + 1 → |fl x| ≤ FLT_MAX

/-- The method `Point::operator-=` in `float` arithmetic: each difference is
rounded by `fl`. With `fl` the identity this is `Point.sub`. -/
def Point.subF {Dim : Nat} (fl : ℚ → ℚ) (p other : Point Dim) : Point Dim :=
  ⟨fun i => fl (p.data_ i - other.data_ i)⟩

/-- The method `Point::operator+=` in `float` arithmetic: each sum is rounded by
`fl`. With `fl` the identity this is `Point.add`. -/
def Point.addF {Dim : Nat} (fl : ℚ → ℚ) (p other : Point Dim) : Point Dim :=
  ⟨fun i => fl (p.data_ i + other.data_ i)⟩

/-- The method `Point::operator/` at `T = size_t` in `float` arithmetic: `val` is
converted to `float` and each quotient is rounded by `fl`; `none` when the
divisor is zero (the quotients are not finite). -/
def Point.divF {Dim : Nat} (fl : ℚ → ℚ) (p : Point Dim) (val : Nat) : Option (Point Dim) :=
  if val = 0 ∨ fl (val : ℚ) = 0 then none
  else some ⟨fun i => fl (p.data_ i / fl (val : ℚ))⟩

/-- The method `Point::Dist` in `float` arithmetic: `other -= *this` rounds,
`Norm` (`fabsf` and comparisons) is exact. -/
def Point.DistF {Dim : Nat} (fl : ℚ → ℚ) (p other : Point Dim) : ℚ :=
  (other.subF fl p).Norm

/-- The loop of `Voronoi::FindNNIndex` with the distances computed in `float`
arithmetic. -/
def Voronoi.FindNNLoopF {Dim : Nat} (fl : ℚ → ℚ) (point : Point Dim) :
    List (Point Dim) → Nat → Nat → ℚ → Nat
  | [], _, min_index, _ => min_index
  | s :: rest, i, min_index, min_dist =>
      let dist := s.DistF fl point
      if dist < min_dist then Voronoi.FindNNLoopF fl point rest (i + 1) i dist
      else Voronoi.FindNNLoopF fl point rest (i + 1) min_index min_dist

/-- The method `Voronoi::FindNNIndex` with the distances computed in `float`
arithmetic. -/
def Voronoi.FindNNIndexF {Dim : Nat} (fl : ℚ → ℚ) (v : Voronoi Dim) (point : Point Dim) :
    Nat :=
  Voronoi.FindNNLoopF fl point v.points_ 0 0 FLT_MAX

/-- The loop `center += point / size` of `calc_median` in `float` arithmetic. -/
def centerLoopF {Dim : Nat} (fl : ℚ → ℚ) (size : Nat) :
    List (Point Dim) → Point Dim → Option (Point Dim)
  | [], center => some center
  | point :: rest, center =>
      match point.divF fl size with
      | none => none
      | some q => centerLoopF fl size rest (center.addF fl q)

/-- The lambda `calc_median` of `main` in `float` arithmetic; `nth_element` as
for `calc_median`. -/
def calc_medianF {Dim : Nat} (fl : ℚ → ℚ) (nth_element : List ℚ → Nat → List ℚ)
    (cluster : ClusterT Dim) : Option ℚ :=
  if cluster.isEmpty then some 0
  else
    let size := cluster.length
    match centerLoopF fl size cluster (ZeroPoint Dim) with
    | none => none
    | some center =>
        let dists := cluster.map (fun point => point.DistF fl center)
        (nth_element dists (dists.length / 2))[dists.length / 2]?

/-! ## The Chebyshev norm -/

theorem NormStep_eq_max (m x : ℚ) : Point.NormStep m x = max m |x| := by
  unfold Point.NormStep
  by_cases h : |x| > m
  · simp only [h, if_true]
    exact (max_eq_right (le_of_lt h)).symm
  · simp only [h, if_false]
    exact (max_eq_left (not_lt.mp h)).symm

theorem normFold_le_iff (l : List ℚ) (m c : ℚ) :
    l.foldl Point.NormStep m ≤ c ↔ m ≤ c ∧ ∀ x ∈ l, |x| ≤ c := by
  induction l generalizing m with
  | nil => simp
  | cons a t ih =>
    simp only [List.foldl_cons, ih, NormStep_eq_max, max_le_iff, List.mem_cons, forall_eq_or_imp]
    tauto

theorem normFold_attained (l : List ℚ) (m : ℚ) :
    l.foldl Point.NormStep m = m ∨ ∃ x ∈ l, l.foldl Point.NormStep m = |x| := by
  induction l generalizing m with
  | nil => simp
  | cons a t ih =>
    simp only [List.foldl_cons, List.mem_cons, exists_eq_or_imp]
    rcases ih (Point.NormStep m a) with h | ⟨x, hx, h⟩
    · rw [h, NormStep_eq_max]
      rcases max_choice m |a| with h' | h'
      · exact Or.inl h'
      · exact Or.inr (Or.inl h')
    · exact Or.inr (Or.inr ⟨x, hx, h⟩)

theorem Norm_le_iff {Dim : Nat} (p : Point Dim) (c : ℚ) :
    p.Norm ≤ c ↔ 0 ≤ c ∧ ∀ i, |p.data_ i| ≤ c := by
  unfold Point.Norm
  rw [normFold_le_iff]
  simp [List.mem_ofFn]

theorem Norm_nonneg {Dim : Nat} (p : Point Dim) : 0 ≤ p.Norm :=
  ((Norm_le_iff p p.Norm).mp le_rfl).1

theorem abs_le_Norm {Dim : Nat} (p : Point Dim) (i : Fin Dim) : |p.data_ i| ≤ p.Norm :=
  ((Norm_le_iff p p.Norm).mp le_rfl).2 i

theorem Dist_nonneg {Dim : Nat} (p q : Point Dim) : 0 ≤ p.Dist q :=
  Norm_nonneg _

theorem Dist_le_Dist_swap {Dim : Nat} (p q : Point Dim) : p.Dist q ≤ q.Dist p := by
  unfold Point.Dist
  rw [Norm_le_iff]
  refine ⟨Norm_nonneg _, fun i => ?_⟩
  have h := abs_le_Norm (p.sub q) i
  simp only [Point.sub] at h ⊢
  rwa [abs_sub_comm]

/-- C6: for a point with at least one coordinate, `Norm` is an upper bound of
the absolute values of the coordinates and is the absolute value of one of
them, i.e. it is their maximum. -/
theorem Norm_is_max_abs {Dim : Nat} (p : Point Dim) (hD : 1 ≤ Dim) :
    (∀ k, |p.data_ k| ≤ p.Norm) ∧ ∃ k, p.Norm = |p.data_ k| := by
  refine ⟨abs_le_Norm p, ?_⟩
  rcases normFold_attained (List.ofFn p.data_) 0 with h | ⟨x, hx, h⟩
  · have h0 : p.Norm = 0 := h
    refine ⟨⟨0, hD⟩, ?_⟩
    have h1 := abs_le_Norm p ⟨0, hD⟩
    rw [h0] at h1 ⊢
    exact le_antisymm (abs_nonneg _) h1
  · obtain ⟨k, rfl⟩ := (List.mem_ofFn _ _).mp hx
    exact ⟨k, h⟩

theorem Norm_is_max_abs_witness :
    1 ≤ 2 ∧ ((∀ k, |(⟨![3, -4]⟩ : Point 2).data_ k| ≤ (⟨![3, -4]⟩ : Point 2).Norm) ∧
      ∃ k, (⟨![3, -4]⟩ : Point 2).Norm = |(⟨![3, -4]⟩ : Point 2).data_ k|) :=
  ⟨by decide, Norm_is_max_abs ⟨![3, -4]⟩ (by decide)⟩

/-- C7: `Dist` is symmetric, and the distance of a point to itself is zero. -/
theorem Dist_symm_and_self {Dim : Nat} (p q : Point Dim) :
    p.Dist q = q.Dist p ∧ p.Dist p = 0 := by
  refine ⟨le_antisymm (Dist_le_Dist_swap p q) (Dist_le_Dist_swap q p), ?_⟩
  refine le_antisymm ?_ (Dist_nonneg p p)
  unfold Point.Dist
  rw [Norm_le_iff]
  simp [Point.sub]

/-- C8: the triangle inequality of `Dist`, coordinates read as exact numbers. -/
theorem Dist_triangle {Dim : Nat} (p q r : Point Dim) :
    p.Dist r ≤ p.Dist q + q.Dist r := by
  unfold Point.Dist
  rw [Norm_le_iff]
  refine ⟨add_nonneg (Norm_nonneg _) (Norm_nonneg _), fun i => ?_⟩
  have h1 := abs_le_Norm (q.sub p) i
  have h2 := abs_le_Norm (r.sub q) i
  simp only [Point.sub] at h1 h2 ⊢
  have h3 : |r.data_ i - p.data_ i| ≤ |r.data_ i - q.data_ i| + |q.data_ i - p.data_ i| :=
    abs_sub_le _ _ _
  linarith

/-! ## Nearest-seed lookup -/

theorem FindNNLoop_spec {Dim : Nat} (point : Point Dim) (rest : List (Point Dim))
    (i min_index : Nat) (min_dist : ℚ) :
    ((∀ s ∈ rest, min_dist ≤ s.Dist point) ∧
        Voronoi.FindNNLoop point rest i min_index min_dist = min_index) ∨
      ∃ k s, rest[k]? = some s ∧
        Voronoi.FindNNLoop point rest i min_index min_dist = i + k ∧
        s.Dist point < min_dist ∧
        (∀ t ∈ rest, s.Dist point ≤ t.Dist point) ∧
        ∀ j t, j < k → rest[j]? = some t → s.Dist point < t.Dist point := by
  induction rest generalizing i min_index min_dist with
  | nil => left; simp [Voronoi.FindNNLoop]
  | cons a rest ih =>
    by_cases h : a.Dist point < min_dist
    · have hstep : Voronoi.FindNNLoop point (a :: rest) i min_index min_dist =
          Voronoi.FindNNLoop point rest (i + 1) i (a.Dist point) := by
        simp [Voronoi.FindNNLoop, h]
      right
      rcases ih (i + 1) i (a.Dist point) with ⟨hall, hr⟩ | ⟨k, s, hk, hr, hlt, hmin, hfirst⟩
      · refine ⟨0, a, by simp, by rw [hstep, hr]; rfl, h, ?_, ?_⟩
        · intro t ht
          rcases List.mem_cons.mp ht with rfl | ht
          · exact le_rfl
          · exact hall t ht
        · intro j t hj
          omega
      · refine ⟨k + 1, s, by simpa using hk, by rw [hstep, hr]; omega, lt_trans hlt h, ?_, ?_⟩
        · intro t ht
          rcases List.mem_cons.mp ht with rfl | ht
          · exact le_of_lt hlt
          · exact hmin t ht
        · intro j t hj hjt
          cases j with
          | zero =>
            simp only [List.getElem?_cons_zero, Option.some.injEq] at hjt
            rw [← hjt]; exact hlt
          | succ j =>
            simp only [List.getElem?_cons_succ] at hjt
            exact hfirst j t (by omega) hjt
    · have hstep : Voronoi.FindNNLoop point (a :: rest) i min_index min_dist =
          Voronoi.FindNNLoop point rest (i + 1) min_index min_dist := by
        simp [Voronoi.FindNNLoop, h]
      have hge : min_dist ≤ a.Dist point := not_lt.mp h
      rcases ih (i + 1) min_index min_dist with ⟨hall, hr⟩ | ⟨k, s, hk, hr, hlt, hmin, hfirst⟩
      · left
        refine ⟨?_, by rw [hstep, hr]⟩
        intro t ht
        rcases List.mem_cons.mp ht with rfl | ht
        · exact hge
        · exact hall t ht
      · right
        refine ⟨k + 1, s, by simpa using hk, by rw [hstep, hr]; omega, hlt, ?_, ?_⟩
        · intro t ht
          rcases List.mem_cons.mp ht with rfl | ht
          · exact le_of_lt (lt_of_lt_of_le hlt hge)
          · exact hmin t ht
        · intro j t hj hjt
          cases j with
          | zero =>
            simp only [List.getElem?_cons_zero, Option.some.injEq] at hjt
            rw [← hjt]; exact lt_of_lt_of_le hlt hge
          | succ j =>
            simp only [List.getElem?_cons_succ] at hjt
            exact hfirst j t (by omega) hjt

theorem FindNNIndex_lt {Dim : Nat} (v : Voronoi Dim) (point : Point Dim)
    (hN : 1 ≤ v.points_.length) : v.FindNNIndex point < v.points_.length := by
  unfold Voronoi.FindNNIndex
  rcases FindNNLoop_spec point v.points_ 0 0 FLT_MAX with ⟨_, hr⟩ | ⟨k, s, hk, hr, _⟩
  · rw [hr]; exact hN
  · rw [hr]
    have := (List.getElem?_eq_some.mp hk).1
    omega

/-! ## The parallel map over the clusters -/

theorem assign_foldlM {Dim : Nat} {β : Type} (function : ClusterT Dim → β)
    (clusters : List (ClusterT Dim)) (sched : List Nat) (result : List β)
    (hs : ∀ ix ∈ sched, ix < clusters.length) (hr : result.length = clusters.length) :
    ∃ r, sched.foldlM (ApplyFuncToClusters.assign function clusters) result = some r ∧
      r.length = clusters.length ∧
      ∀ i, r[i]? = if i ∈ sched then clusters[i]?.map function else result[i]? := by
  induction sched generalizing result with
  | nil => exact ⟨result, by simp, hr, by simp⟩
  | cons a t ih =>
    have ha : a < clusters.length := hs a (List.mem_cons_self _ _)
    have hstep : ApplyFuncToClusters.assign function clusters result a =
        some (result.set a (function clusters[a])) := by
      simp [ApplyFuncToClusters.assign, List.getElem?_eq_getElem ha, hr, ha]
    obtain ⟨r, hfold, hlen, hget⟩ := ih (result.set a (function clusters[a]))
      (fun ix hix => hs ix (List.mem_cons_of_mem _ hix)) (by simpa using hr)
    refine ⟨r, by simp [List.foldlM_cons, hstep, hfold], hlen, fun i => ?_⟩
    rw [hget i]
    by_cases hit : i ∈ t
    · simp [hit]
    · by_cases hia : i = a
      · subst hia
        simp [hit, List.getElem?_eq_getElem ha, hr, ha]
      · have hai : a ≠ i := fun h => hia h.symm
        simp [hit, hia, List.getElem?_set_ne hai]

theorem mem_workerLoop (size num_workers i ix : Nat) :
    ix ∈ ApplyFuncToClusters.workerLoop size num_workers i ↔
      (ApplyFuncToClusters.bounds size num_workers i).1 ≤ ix ∧
        ix < (ApplyFuncToClusters.bounds size num_workers i).2 := by
  unfold ApplyFuncToClusters.workerLoop
  simp only [List.mem_range'_1]
  omega

theorem mem_writes (size num_workers ix : Nat) (hW : 0 < num_workers) :
    ix ∈ ApplyFuncToClusters.writes size num_workers ↔ ix < size := by
  unfold ApplyFuncToClusters.writes
  simp only [List.mem_flatMap, List.mem_range, mem_workerLoop, ApplyFuncToClusters.bounds]
  have hle : num_workers * (size / num_workers) ≤ size := Nat.mul_div_le size num_workers
  constructor
  · rintro ⟨i, hi, _, h2⟩
    by_cases hlast : i + 1 = num_workers
    · simpa [hlast] using h2
    · simp only [hlast, if_false] at h2
      have h3 : (i + 1) * (size / num_workers) ≤ num_workers * (size / num_workers) :=
        Nat.mul_le_mul_right _ (by omega)
      omega
  · intro hix
    by_cases hin : ix < (num_workers - 1) * (size / num_workers)
    · have hstep : 0 < size / num_workers := by
        rcases Nat.eq_zero_or_pos (size / num_workers) with h0 | h0
        · rw [h0] at hin; simp at hin
        · exact h0
      have hq : ix / (size / num_workers) < num_workers - 1 :=
        (Nat.div_lt_iff_lt_mul hstep).mpr hin
      refine ⟨ix / (size / num_workers), by omega, Nat.div_mul_le_self _ _, ?_⟩
      have hne : ¬ (ix / (size / num_workers) + 1 = num_workers) := by omega
      simp only [hne, if_false]
      have h1 := Nat.div_add_mod ix (size / num_workers)
      have h2 := Nat.mod_lt ix hstep
      rw [Nat.mul_comm] at h1
      rw [Nat.add_mul, Nat.one_mul]
      omega
    · refine ⟨num_workers - 1, by omega, by omega, ?_⟩
      have he : num_workers - 1 + 1 = num_workers := by omega
      simpa [he] using hix

theorem run_eq_map {Dim : Nat} {β : Type} (init : β) (function : ClusterT Dim → β)
    (clusters : List (ClusterT Dim)) (sched : List Nat)
    (hs : ∀ ix, ix ∈ sched ↔ ix < clusters.length) :
    ApplyFuncToClusters.run init function clusters sched = some (clusters.map function) := by
  obtain ⟨r, hfold, hlen, hget⟩ := assign_foldlM function clusters sched
    (List.replicate clusters.length init) (fun ix hix => (hs ix).mp hix) (by simp)
  unfold ApplyFuncToClusters.run
  rw [hfold]
  congr 1
  apply List.ext_getElem?
  intro i
  rw [hget i]
  by_cases hi : i < clusters.length
  · simp [(hs i).mpr hi]
  · have hnot : i ∉ sched := fun h => hi ((hs i).mp h)
    have hle : clusters.length ≤ i := not_lt.mp hi
    rw [if_neg hnot, List.getElem?_eq_none (by simpa using hle),
      List.getElem?_eq_none (by simpa using hle)]

/-- C2: with at least one worker, `ApplyFuncToClusters` returns the list whose
`i`-th entry is `function` applied to the `i`-th cluster, i.e. the sequential
map of `function` over the clusters in their order, whatever the number of
clusters; the same holds when the assignments of the workers are performed in
any other order. -/
theorem ApplyFuncToClusters_eq_map {Dim : Nat} {β : Type} (init : β) (num_workers : Nat)
    (clusters : List (ClusterT Dim)) (function : ClusterT Dim → β) (hW : 1 ≤ num_workers) :
    ApplyFuncToClusters init num_workers clusters function = some (clusters.map function) ∧
      ∀ sched, sched.Perm (ApplyFuncToClusters.writes clusters.length num_workers) →
        ApplyFuncToClusters.run init function clusters sched =
          some (clusters.map function) := by
  constructor
  · have hne : num_workers ≠ 0 := by omega
    simp only [ApplyFuncToClusters, hne, if_false]
    exact run_eq_map init function clusters _ (fun ix => mem_writes _ _ ix hW)
  · intro sched hperm
    exact run_eq_map init function clusters sched
      (fun ix => (hperm.mem_iff).trans (mem_writes _ _ ix hW))

theorem ApplyFuncToClusters_eq_map_witness :
    1 ≤ 2 ∧
      ApplyFuncToClusters 0 2
          [[ZeroPoint 1], [], [ZeroPoint 1, ZeroPoint 1], [], [ZeroPoint 1]] List.length =
        some [1, 0, 2, 0, 1] :=
  ⟨by decide,
    (ApplyFuncToClusters_eq_map 0 2
      [[ZeroPoint 1], [], [ZeroPoint 1, ZeroPoint 1], [], [ZeroPoint 1]] List.length
      (by decide)).1⟩

/-! ## The merge step of `GetPointClusters` -/

theorem sum_length_set {α : Type} (wr : List (List α)) (k : Nat) (c : List α) (x : α)
    (h : wr[k]? = some c) :
    ((wr.set k (c ++ [x])).map List.length).sum = (wr.map List.length).sum + 1 := by
  induction wr generalizing k with
  | nil => simp at h
  | cons a t ih =>
    cases k with
    | zero =>
      simp only [List.getElem?_cons_zero, Option.some.injEq] at h
      subst h
      simp
      omega
    | succ k =>
      simp only [List.getElem?_cons_succ] at h
      simp only [List.set_cons_succ, List.map_cons, List.sum_cons, ih k h]
      omega

theorem push_foldlM {Dim : Nat} (buf : List (Point Dim × Nat)) (wr : List (ClusterT Dim))
    (hb : ∀ e ∈ buf, e.2 < wr.length) :
    ∃ wr1, buf.foldlM GetPointClusters.push wr = some wr1 ∧
      wr1.length = wr.length ∧
      (∀ i, wr1[i]? =
        wr[i]?.map (fun c => c ++ (buf.filter (fun e => e.2 = i)).map Prod.fst)) ∧
      (wr1.map List.length).sum = (wr.map List.length).sum + buf.length := by
  induction buf generalizing wr with
  | nil => exact ⟨wr, by simp, rfl, by simp, by simp⟩
  | cons e t ih =>
    have he : e.2 < wr.length := hb e (List.mem_cons_self _ _)
    have hget : wr[e.2]? = some wr[e.2] := List.getElem?_eq_getElem he
    have hstep : GetPointClusters.push wr e = some (wr.set e.2 (wr[e.2] ++ [e.1])) := by
      simp [GetPointClusters.push, hget]
    obtain ⟨wr1, hfold, hlen, hidx, hsum⟩ := ih (wr.set e.2 (wr[e.2] ++ [e.1]))
      (fun x hx => by simpa using hb x (List.mem_cons_of_mem _ hx))
    refine ⟨wr1, by simp [List.foldlM_cons, hstep, hfold], by simpa using hlen, ?_, ?_⟩
    · intro i
      rw [hidx i]
      by_cases hei : e.2 = i
      · subst hei
        simp [hget, he]
      · simp [List.getElem?_set_ne hei, hei]
    · rw [hsum, sum_length_set wr e.2 wr[e.2] e.1 hget]
      simp
      omega

theorem merge_foldlM {Dim : Nat} (results : List (List (Point Dim × Nat)))
    (wr : List (ClusterT Dim)) (hb : ∀ b ∈ results, ∀ e ∈ b, e.2 < wr.length) :
    ∃ wr1, results.foldlM (fun work_result worker_result =>
        worker_result.foldlM GetPointClusters.push work_result) wr = some wr1 ∧
      wr1.length = wr.length ∧
      (∀ i, wr1[i]? =
        wr[i]?.map (fun c => c ++ (results.flatten.filter (fun e => e.2 = i)).map Prod.fst)) ∧
      (wr1.map List.length).sum = (wr.map List.length).sum + results.flatten.length := by
  induction results generalizing wr with
  | nil => exact ⟨wr, by simp, rfl, by simp, by simp⟩
  | cons b t ih =>
    obtain ⟨wr0, hfold0, hlen0, hidx0, hsum0⟩ :=
      push_foldlM b wr (hb b (List.mem_cons_self _ _))
    obtain ⟨wr1, hfold, hlen, hidx, hsum⟩ := ih wr0
      (fun x hx e he => by rw [hlen0]; exact hb x (List.mem_cons_of_mem _ hx) e he)
    refine ⟨wr1, by simp [List.foldlM_cons, hfold0, hfold], by rw [hlen, hlen0], ?_, ?_⟩
    · intro i
      rw [hidx i, hidx0 i]
      cases wr[i]? <;> simp
    · rw [hsum, hsum0]
      simp
      omega

theorem merge_spec {Dim : Nat} (voronoi_size : Nat) (results : List (List (Point Dim × Nat)))
    (hb : ∀ b ∈ results, ∀ e ∈ b, e.2 < voronoi_size) :
    ∃ parts, GetPointClusters.merge voronoi_size results = some parts ∧
      parts.length = voronoi_size ∧
      (∀ i, i < voronoi_size →
        parts[i]? = some ((results.flatten.filter (fun e => e.2 = i)).map Prod.fst)) ∧
      (parts.map List.length).sum = results.flatten.length := by
  obtain ⟨parts, hfold, hlen, hidx, hsum⟩ := merge_foldlM results
    (List.replicate voronoi_size ([] : ClusterT Dim)) (by simpa using hb)
  refine ⟨parts, hfold, by simpa using hlen, ?_, ?_⟩
  · intro i hi
    rw [hidx i]
    simp [hi]
  · rw [hsum]
    simp

/-- C3: with at least one seed and worker buffers whose stored index is the
`FindNNIndex` of the stored point, the merge step performs no out-of-range
access and returns exactly as many partitions as there are seeds; partition
`i` holds exactly the points stored with index `i`, in buffer order; every
sampled point lies in the partition of its nearest-seed index and in no other;
and the sizes of the partitions add up to the number of sampled points. -/
theorem merge_partitions {Dim : Nat} (v : Voronoi Dim)
    (results : List (List (Point Dim × Nat))) (hN : 1 ≤ v.points_.length)
    (hnn : ∀ b ∈ results, ∀ e ∈ b, e.2 = v.FindNNIndex e.1) :
    ∃ parts, GetPointClusters.merge v.points_.length results = some parts ∧
      parts.length = v.points_.length ∧
      (∀ i, i < v.points_.length →
        parts[i]? = some ((results.flatten.filter (fun e => e.2 = i)).map Prod.fst)) ∧
      (∀ e ∈ results.flatten, ∀ i c, parts[i]? = some c →
        (e.1 ∈ c ↔ i = v.FindNNIndex e.1)) ∧
      (parts.map List.length).sum = results.flatten.length := by
  have hflat : ∀ e ∈ results.flatten, e.2 = v.FindNNIndex e.1 := by
    intro e he
    obtain ⟨b, hb, heb⟩ := List.mem_flatten.mp he
    exact hnn b hb e heb
  obtain ⟨parts, hm, hlen, hidx, hsum⟩ := merge_spec v.points_.length results
    (fun b hb e he => by rw [hnn b hb e he]; exact FindNNIndex_lt v e.1 hN)
  refine ⟨parts, hm, hlen, hidx, ?_, hsum⟩
  intro e he i c hc
  have hi : i < v.points_.length := by
    rw [← hlen]
    exact (List.getElem?_eq_some.mp hc).1
  rw [hidx i hi, Option.some.injEq] at hc
  subst hc
  simp only [List.mem_map, List.mem_filter, decide_eq_true_eq]
  constructor
  · rintro ⟨x, ⟨hx, hxi⟩, hxe⟩
    rw [← hxe, ← hflat x hx, hxi]
  · intro hie
    exact ⟨e, ⟨he, by rw [hie, hflat e he]⟩, rfl⟩

theorem merge_partitions_witness :
    1 ≤ [(⟨![0]⟩ : Point 1), ⟨![1]⟩].length ∧
      ∃ parts,
        GetPointClusters.merge 2
            [[((⟨![1]⟩ : Point 1), 1)], [(⟨![0]⟩, 0), (⟨![1]⟩, 1)]] = some parts ∧
          parts.length = 2 ∧ (parts.map List.length).sum = 3 := by
  have h0 : Voronoi.FindNNIndex ⟨[(⟨![0]⟩ : Point 1), ⟨![1]⟩]⟩ ⟨![0]⟩ = 0 := by
    simp [Voronoi.FindNNIndex, Voronoi.FindNNLoop, Point.Dist, Point.sub, Point.Norm,
      Point.NormStep, FLT_MAX, List.ofFn_succ]
  have h1 : Voronoi.FindNNIndex ⟨[(⟨![0]⟩ : Point 1), ⟨![1]⟩]⟩ ⟨![1]⟩ = 1 := by
    simp [Voronoi.FindNNIndex, Voronoi.FindNNLoop, Point.Dist, Point.sub, Point.Norm,
      Point.NormStep, FLT_MAX, List.ofFn_succ]
  obtain ⟨parts, h1, h2, _, _, h5⟩ := merge_partitions ⟨[(⟨![0]⟩ : Point 1), ⟨![1]⟩]⟩
    [[((⟨![1]⟩ : Point 1), 1)], [(⟨![0]⟩, 0), (⟨![1]⟩, 1)]] (by decide) (by
      intro b hb e he
      simp only [List.mem_cons, List.mem_singleton, List.not_mem_nil, or_false] at hb
      rcases hb with rfl | rfl
      · simp only [List.mem_singleton] at he
        subst he
        exact h1.symm
      · simp only [List.mem_cons, List.mem_singleton, List.not_mem_nil, or_false] at he
        rcases he with rfl | rfl
        · exact h0.symm
        · exact h1.symm)
  exact ⟨by decide, parts, h1, h2, h5⟩

/-! ## Sampling and `GetPointClusters` -/

theorem RandomPoint_accept (Dim fuel : Nat) (rd : Nat → ℚ) (hfuel : 1 ≤ fuel)
    (hrd : ∀ k, |rd k| ≤ 1) :
    RandomPoint Dim fuel rd = some (⟨fun i => rd i⟩, fun k => rd (k + Dim)) := by
  obtain ⟨f, rfl⟩ : ∃ f, fuel = f + 1 := ⟨fuel - 1, by omega⟩
  have hnorm : (⟨fun i => rd i⟩ : Point Dim).Norm ≤ 1 :=
    (Norm_le_iff _ 1).mpr ⟨by norm_num, fun i => hrd i⟩
  simp [RandomPoint, hnorm]

theorem RandomPoint_range (Dim fuel : Nat) (rd : Nat → ℚ) (hfuel : 1 ≤ fuel)
    (hrd : ∀ k, |rd k| ≤ 1) :
    ∃ point rd1, RandomPoint Dim fuel rd = some (point, rd1) ∧ ∀ k, |rd1 k| ≤ 1 :=
  ⟨_, _, RandomPoint_accept Dim fuel rd hfuel hrd, fun k => hrd (k + Dim)⟩

theorem fill_length (Dim fuel num_points : Nat) (rd : Nat → ℚ) (ps : List (Point Dim))
    (h : Voronoi.fill Dim fuel num_points rd = some ps) : ps.length = num_points := by
  induction num_points generalizing rd ps with
  | zero =>
    simp only [Voronoi.fill, Option.some.injEq] at h
    rw [← h]; rfl
  | succ n ih =>
    simp only [Voronoi.fill] at h
    cases hp : RandomPoint Dim fuel rd with
    | none => simp [hp] at h
    | some pr =>
      obtain ⟨point, rd1⟩ := pr
      simp only [hp] at h
      cases hf : Voronoi.fill Dim fuel n rd1 with
      | none => simp [hf] at h
      | some rest =>
        simp only [hf, Option.some.injEq] at h
        rw [← h, List.length_cons, ih rd1 rest hf]

theorem fill_returns (Dim fuel num_points : Nat) (rd : Nat → ℚ) (hfuel : 1 ≤ fuel)
    (hrd : ∀ k, |rd k| ≤ 1) : ∃ ps, Voronoi.fill Dim fuel num_points rd = some ps := by
  induction num_points generalizing rd with
  | zero => exact ⟨[], rfl⟩
  | succ n ih =>
    obtain ⟨point, rd1, hp, hrd1⟩ := RandomPoint_range Dim fuel rd hfuel hrd
    obtain ⟨rest, hf⟩ := ih rd1 hrd1
    exact ⟨point :: rest, by simp [Voronoi.fill, hp, hf]⟩

theorem worker_spec {Dim : Nat} (fuel : Nat) (voronoi : Voronoi Dim) (work_amount : Nat)
    (rd : Nat → ℚ) (my_res_part res : List (Point Dim × Nat))
    (h : GetPointClusters.worker fuel voronoi work_amount rd my_res_part = some res) :
    res.length = my_res_part.length + work_amount ∧
      ∀ e ∈ res, e ∈ my_res_part ∨ e.2 = voronoi.FindNNIndex e.1 := by
  induction work_amount generalizing rd my_res_part with
  | zero =>
    simp only [GetPointClusters.worker, Option.some.injEq] at h
    subst h
    exact ⟨rfl, fun e he => Or.inl he⟩
  | succ n ih =>
    simp only [GetPointClusters.worker] at h
    cases hp : RandomPoint Dim fuel rd with
    | none => simp [hp] at h
    | some pr =>
      obtain ⟨point, rd1⟩ := pr
      simp only [hp] at h
      obtain ⟨hlen, hmem⟩ := ih rd1 _ h
      refine ⟨by rw [hlen]; simp; omega, fun e he => ?_⟩
      rcases hmem e he with h1 | h1
      · rcases List.mem_append.mp h1 with h2 | h2
        · exact Or.inl h2
        · simp only [List.mem_singleton] at h2
          subst h2
          exact Or.inr rfl
      · exact Or.inr h1

theorem worker_returns {Dim : Nat} (fuel : Nat) (voronoi : Voronoi Dim) (work_amount : Nat)
    (rd : Nat → ℚ) (my_res_part : List (Point Dim × Nat)) (hfuel : 1 ≤ fuel)
    (hrd : ∀ k, |rd k| ≤ 1) :
    ∃ res, GetPointClusters.worker fuel voronoi work_amount rd my_res_part = some res := by
  induction work_amount generalizing rd my_res_part with
  | zero => exact ⟨my_res_part, rfl⟩
  | succ n ih =>
    obtain ⟨point, rd1, hp, hrd1⟩ := RandomPoint_range Dim fuel rd hfuel hrd
    obtain ⟨res, hres⟩ := ih rd1 (my_res_part ++ [(point, voronoi.FindNNIndex point)]) hrd1
    exact ⟨res, by simp [GetPointClusters.worker, hp, hres]⟩

theorem spawn_spec {Dim : Nat} (fuel : Nat) (voronoi : Voronoi Dim) (work_amount : Nat)
    (worker_rd : Nat → Nat → ℚ) (ws : List Nat) (results : List (List (Point Dim × Nat)))
    (h : GetPointClusters.spawn fuel voronoi work_amount worker_rd ws = some results) :
    results.length = ws.length ∧
      ∀ b ∈ results, b.length = work_amount ∧ ∀ e ∈ b, e.2 = voronoi.FindNNIndex e.1 := by
  induction ws generalizing results with
  | nil =>
    simp only [GetPointClusters.spawn, Option.some.injEq] at h
    subst h
    simp
  | cons i rest ih =>
    simp only [GetPointClusters.spawn] at h
    cases hw : GetPointClusters.worker fuel voronoi work_amount (worker_rd i) [] with
    | none => simp [hw] at h
    | some part =>
      simp only [hw] at h
      cases hs : GetPointClusters.spawn fuel voronoi work_amount worker_rd rest with
      | none => simp [hs] at h
      | some others =>
        simp only [hs, Option.some.injEq] at h
        subst h
        obtain ⟨hlen, hall⟩ := ih others hs
        obtain ⟨hplen, hpmem⟩ := worker_spec fuel voronoi work_amount (worker_rd i) [] part hw
        refine ⟨by simp [hlen], fun b hb => ?_⟩
        rcases List.mem_cons.mp hb with rfl | hb
        · refine ⟨by simpa using hplen, fun e he => ?_⟩
          rcases hpmem e he with h1 | h1
          · simp at h1
          · exact h1
        · exact hall b hb

theorem spawn_returns {Dim : Nat} (fuel : Nat) (voronoi : Voronoi Dim) (work_amount : Nat)
    (worker_rd : Nat → Nat → ℚ) (ws : List Nat) (hfuel : 1 ≤ fuel)
    (hrd : ∀ i k, |worker_rd i k| ≤ 1) :
    ∃ results, GetPointClusters.spawn fuel voronoi work_amount worker_rd ws = some results := by
  induction ws with
  | nil => exact ⟨[], rfl⟩
  | cons i rest ih =>
    obtain ⟨part, hw⟩ := worker_returns fuel voronoi work_amount (worker_rd i) [] hfuel (hrd i)
    obtain ⟨others, hs⟩ := ih
    exact ⟨part :: others, by simp [GetPointClusters.spawn, hw, hs]⟩

theorem length_flatten_const {α : Type} (L : List (List α)) (a : Nat)
    (h : ∀ b ∈ L, b.length = a) : L.flatten.length = L.length * a := by
  induction L with
  | nil => simp
  | cons b t ih =>
    rw [List.flatten_cons, List.length_append, h b (List.mem_cons_self _ _),
      ih (fun x hx => h x (List.mem_cons_of_mem _ hx)), List.length_cons, Nat.succ_mul]
    omega

/-- C4: with at least one seed, whenever `GetPointClusters` returns, it returns
as many partitions as seeds and the sizes of the partitions add up to
`W * (M / W)` for worker count `W` and sample count `M`; and it does return,
already with one iteration allowed to each `RandomPoint` loop, when the values
drawn lie in `[-1, 1]`. -/
theorem GetPointClusters_total (Dim fuel W : Nat) (rd : Nat → ℚ) (worker_rd : Nat → Nat → ℚ)
    (N M : Nat) (hN : 1 ≤ N) :
    (∀ parts, GetPointClusters Dim fuel W rd worker_rd N M = some parts →
        parts.length = N ∧ (parts.map List.length).sum = W * (M / W)) ∧
      (1 ≤ fuel → (∀ k, |rd k| ≤ 1) → (∀ i k, |worker_rd i k| ≤ 1) →
        ∃ parts, GetPointClusters Dim fuel W rd worker_rd N M = some parts) := by
  have key : ∀ ps : List (Point Dim), Voronoi.fill Dim fuel N rd = some ps →
      ∀ results, GetPointClusters.spawn fuel ⟨ps⟩ (M / W) worker_rd (List.range W) =
          some results →
        ∃ parts, GetPointClusters.merge N results = some parts ∧
          parts.length = N ∧ (parts.map List.length).sum = W * (M / W) := by
    intro ps hps results hres
    have hlen : ps.length = N := fill_length Dim fuel N rd ps hps
    obtain ⟨hrl, hall⟩ := spawn_spec fuel ⟨ps⟩ (M / W) worker_rd (List.range W) results hres
    obtain ⟨parts, hm, hpl, _, hsum⟩ := merge_spec N results (fun b hb e he => by
      rw [(hall b hb).2 e he, ← hlen]
      exact FindNNIndex_lt ⟨ps⟩ e.1 (by simpa [hlen] using hN))
    refine ⟨parts, hm, hpl, ?_⟩
    rw [hsum, length_flatten_const results (M / W) (fun b hb => (hall b hb).1), hrl,
      List.length_range]
  constructor
  · intro parts h
    unfold GetPointClusters Voronoi.construct at h
    cases hf : Voronoi.fill Dim fuel N rd with
    | none => simp [hf] at h
    | some ps =>
      simp only [hf, Option.map_some'] at h
      cases hs : GetPointClusters.spawn fuel ⟨ps⟩ (M / W) worker_rd (List.range W) with
      | none => simp [hs] at h
      | some results =>
        simp only [hs] at h
        obtain ⟨parts1, hm, hpl, hsum⟩ := key ps hf results hs
        rw [hm, Option.some.injEq] at h
        subst h
        exact ⟨hpl, hsum⟩
  · intro hfuel hrd hwrd
    obtain ⟨ps, hf⟩ := fill_returns Dim fuel N rd hfuel hrd
    obtain ⟨results, hs⟩ := spawn_returns fuel ⟨ps⟩ (M / W) worker_rd (List.range W) hfuel hwrd
    obtain ⟨parts, hm, _, _⟩ := key ps hf results hs
    exact ⟨parts, by simp [GetPointClusters, Voronoi.construct, hf, hs, hm]⟩

theorem GetPointClusters_total_witness :
    1 ≤ 2 ∧ ∃ parts,
      GetPointClusters 1 1 3 (fun _ => 0) (fun _ _ => 0) 2 7 = some parts ∧
        parts.length = 2 ∧ (parts.map List.length).sum = 6 := by
  have h := GetPointClusters_total 1 1 3 (fun _ => 0) (fun _ _ => 0) 2 7 (by decide)
  obtain ⟨parts, hp⟩ := h.2 (by decide) (by simp) (by simp)
  exact ⟨by decide, parts, hp, (h.1 parts hp).1, (h.1 parts hp).2⟩

/-- C5 (as amended): when `std::thread::hardware_concurrency()` reports `0`
there is no worker at all: once the seeds are drawn, `GetPointClusters` returns
one empty partition per seed, whatever the sample count. -/
theorem GetPointClusters_no_worker (Dim fuel : Nat) (rd : Nat → ℚ) (worker_rd : Nat → Nat → ℚ)
    (N M : Nat) (hfuel : 1 ≤ fuel) (hrd : ∀ k, |rd k| ≤ 1) :
    GetPointClusters Dim fuel 0 rd worker_rd N M = some (List.replicate N []) := by
  obtain ⟨ps, hf⟩ := fill_returns Dim fuel N rd hfuel hrd
  simp [GetPointClusters, Voronoi.construct, hf, GetPointClusters.spawn,
    GetPointClusters.merge]

theorem GetPointClusters_no_worker_witness :
    1 ≤ 1 ∧ (∀ k : Nat, |(fun _ => (0 : ℚ)) k| ≤ 1) ∧
      GetPointClusters 2 1 0 (fun _ => 0) (fun _ _ => 0) 3 10 = some [[], [], []] :=
  ⟨by decide, by simp,
    GetPointClusters_no_worker 2 1 (fun _ => 0) (fun _ _ => 0) 3 10 (by decide) (by simp)⟩

/-- C5 (as stated) fails: with `hardware_concurrency() = 0`, one seed and four
samples asked for, the single partition returned is empty, whereas one worker
assigns all four samples. -/
theorem GetPointClusters_no_fallback_counterexample :
    GetPointClusters 1 1 0 (fun _ => 0) (fun _ _ => 0) 1 4 = some [[]] ∧
      GetPointClusters 1 1 1 (fun _ => 0) (fun _ _ => 0) 1 4 =
        some [[ZeroPoint 1, ZeroPoint 1, ZeroPoint 1, ZeroPoint 1]] := by
  constructor
  · simp [GetPointClusters, Voronoi.construct, Voronoi.fill, RandomPoint, Point.Norm,
      Point.NormStep, GetPointClusters.spawn, GetPointClusters.merge, List.ofFn_succ]
  · simp [GetPointClusters, Voronoi.construct, Voronoi.fill, RandomPoint, Point.Norm,
      Point.NormStep, GetPointClusters.spawn, GetPointClusters.worker,
      GetPointClusters.merge, GetPointClusters.push, Voronoi.FindNNIndex,
      Voronoi.FindNNLoop, Point.Dist, Point.sub, FLT_MAX, ZeroPoint, List.ofFn_succ,
      List.range_succ]

/-! ## The statistics -/

theorem centerLoop_eq {Dim : Nat} (size : Nat) (hsize : size ≠ 0) (l : List (Point Dim))
    (center : Point Dim) :
    centerLoop size l center =
      some ⟨fun i => center.data_ i + (l.map (fun p => p.data_ i)).sum / (size : ℚ)⟩ := by
  induction l generalizing center with
  | nil => simp [centerLoop]
  | cons p t ih =>
    simp only [centerLoop, Point.div, hsize, if_false, ih, Point.add, List.map_cons,
      List.sum_cons]
    congr 2
    funext i
    ring

theorem sumLoop_eq {Dim : Nat} (size : Nat) (hsize : size ≠ 0) (center : Point Dim)
    (l : List (Point Dim)) (stddev : ℚ) :
    calc_stddev.sumLoop size center l stddev =
      some (stddev + (l.map (fun p => (p.Dist center) ^ 2)).sum / (size : ℚ)) := by
  induction l generalizing stddev with
  | nil => simp [calc_stddev.sumLoop]
  | cons p t ih =>
    simp only [calc_stddev.sumLoop, hsize, if_false, ih, List.map_cons, List.sum_cons]
    congr 1
    ring

theorem centerLoop_centroid {Dim : Nat} (cluster : ClusterT Dim) (hne : cluster ≠ []) :
    centerLoop cluster.length cluster (ZeroPoint Dim) = some (centroid cluster) := by
  have hsize : cluster.length ≠ 0 := fun h => hne (List.length_eq_zero.mp h)
  rw [centerLoop_eq cluster.length hsize]
  simp [ZeroPoint, centroid]

/-- C9 (as amended): on the empty partition both loops of `calc_stddev` run
zero times, no division is performed and the result is `sqrtf(0)`, a finite
number; `calc_median` returns `0` there. -/
theorem calc_stddev_empty (Dim : Nat) (sqrtf : ℚ → ℚ) (nth_element : List ℚ → Nat → List ℚ) :
    calc_stddev sqrtf ([] : ClusterT Dim) = some (sqrtf 0) ∧
      calc_median nth_element ([] : ClusterT Dim) = some 0 := by
  constructor
  · simp [calc_stddev, centerLoop, calc_stddev.sumLoop]
  · simp [calc_median]

/-- C9 (as stated) fails: whatever `sqrtf` is, `calc_stddev` of the empty
partition is not the outcome of a division by zero. -/
theorem calc_stddev_empty_counterexample :
    ¬ ∃ sqrtf : ℚ → ℚ, calc_stddev sqrtf ([] : ClusterT 8) = none := by
  rintro ⟨sqrtf, h⟩
  simp [calc_stddev, centerLoop, calc_stddev.sumLoop] at h

/-- C10: on a non-empty partition of `n` points the loop `center += point / size`
ends with the component-wise mean of the points, and `calc_stddev` returns
`sqrtf` of `(1/n)` times the sum of the squared distances of the points to
that mean. -/
theorem calc_stddev_formula {Dim : Nat} (sqrtf : ℚ → ℚ) (cluster : ClusterT Dim)
    (hne : cluster ≠ []) :
    centerLoop cluster.length cluster (ZeroPoint Dim) = some (centroid cluster) ∧
      calc_stddev sqrtf cluster =
        some (sqrtf ((1 / (cluster.length : ℚ)) *
          (cluster.map (fun point => (point.Dist (centroid cluster)) ^ 2)).sum)) := by
  have hsize : cluster.length ≠ 0 := fun h => hne (List.length_eq_zero.mp h)
  refine ⟨centerLoop_centroid cluster hne, ?_⟩
  simp only [calc_stddev, centerLoop_centroid cluster hne, sumLoop_eq cluster.length hsize]
  congr 2
  ring

theorem calc_stddev_formula_witness :
    [(⟨![1, 0]⟩ : Point 2), ⟨![3, 0]⟩] ≠ [] ∧
      centerLoop 2 [(⟨![1, 0]⟩ : Point 2), ⟨![3, 0]⟩] (ZeroPoint 2) =
        some (centroid [(⟨![1, 0]⟩ : Point 2), ⟨![3, 0]⟩]) ∧
      calc_stddev (fun x => x) [(⟨![1, 0]⟩ : Point 2), ⟨![3, 0]⟩] = some 1 := by
  have h := calc_stddev_formula (fun x => x) [(⟨![1, 0]⟩ : Point 2), ⟨![3, 0]⟩] (by simp)
  refine ⟨by simp, h.1, ?_⟩
  rw [h.2]
  simp [centroid, Point.Dist, Point.sub, Point.Norm, Point.NormStep, List.ofFn_succ]
  norm_num

/-! ## The median -/

theorem nth_eq_sorted (r l : List ℚ) (n : Nat) (hn : n < l.length) (hperm : r.Perm l)
    (hpart : ∀ i j x y, i ≤ n → n ≤ j → r[i]? = some x → r[j]? = some y → x ≤ y) :
    ∃ m, r[n]? = some m ∧ (l.insertionSort (· ≤ ·))[n]? = some m := by
  have hrn : n < r.length := by rw [hperm.length_eq]; exact hn
  have hsplit : r = r.take n ++ r[n] :: r.drop (n + 1) := by
    rw [← List.drop_eq_getElem_cons hrn, List.take_append_drop]
  have hrget : r[n]? = some r[n] := List.getElem?_eq_getElem hrn
  have hlow : ∀ y ∈ r.take n, y ≤ r[n] := by
    intro y hy
    obtain ⟨i, hi, rfl⟩ := List.getElem_of_mem hy
    have hin : i < n := by
      have := List.length_take_le n r
      omega
    have hir : i < r.length := by omega
    rw [List.getElem_take]
    exact hpart i n _ _ (by omega) le_rfl (List.getElem?_eq_getElem hir) hrget
  have hhigh : ∀ z ∈ r.drop (n + 1), r[n] ≤ z := by
    intro z hz
    obtain ⟨j, hj, rfl⟩ := List.getElem_of_mem hz
    rw [List.getElem_drop]
    have hjr : n + 1 + j < r.length := by
      rw [List.length_drop] at hj
      omega
    exact hpart n (n + 1 + j) _ _ le_rfl (by omega) hrget (List.getElem?_eq_getElem hjr)
  have hsorted : List.Sorted (· ≤ ·)
      ((r.take n).insertionSort (· ≤ ·) ++ r[n] :: (r.drop (n + 1)).insertionSort (· ≤ ·)) := by
    unfold List.Sorted
    rw [List.pairwise_append]
    refine ⟨List.sorted_insertionSort _ _, ?_, ?_⟩
    · rw [List.pairwise_cons]
      refine ⟨fun z hz => hhigh z ((List.perm_insertionSort _ _).mem_iff.mp hz),
        List.sorted_insertionSort _ _⟩
    · intro y hy z hz
      have hy1 : y ≤ r[n] := hlow y ((List.perm_insertionSort _ _).mem_iff.mp hy)
      rcases List.mem_cons.mp hz with rfl | hz
      · exact hy1
      · exact le_trans hy1 (hhigh z ((List.perm_insertionSort _ _).mem_iff.mp hz))
  have hp : (l.insertionSort (· ≤ ·)).Perm
      ((r.take n).insertionSort (· ≤ ·) ++ r[n] :: (r.drop (n + 1)).insertionSort (· ≤ ·)) := by
    refine (List.perm_insertionSort _ l).trans (hperm.symm.trans ?_)
    conv_lhs => rw [hsplit]
    exact List.Perm.append (List.perm_insertionSort _ _).symm
      (List.Perm.cons _ (List.perm_insertionSort _ _).symm)
  have heq := List.eq_of_perm_of_sorted hp (List.sorted_insertionSort _ l) hsorted
  refine ⟨r[n], hrget, ?_⟩
  rw [heq]
  have hlen : ((r.take n).insertionSort (· ≤ ·)).length = n := by
    rw [List.length_insertionSort, List.length_take]
    omega
  rw [List.getElem?_append_right (by omega), hlen]
  simp

theorem nth_element_by_sort_post : NthElementPost nth_element_by_sort := by
  intro dists n _
  refine ⟨List.perm_insertionSort _ _, ?_⟩
  intro i j x y hi hj hx hy
  obtain ⟨hi1, rfl⟩ := List.getElem?_eq_some.mp hx
  obtain ⟨hj1, rfl⟩ := List.getElem?_eq_some.mp hy
  have hs : List.Sorted (· ≤ ·) (nth_element_by_sort dists n) :=
    List.sorted_insertionSort _ _
  rcases Nat.eq_or_lt_of_le (le_trans hi hj) with h | h
  · subst h
    exact le_rfl
  · exact (List.pairwise_iff_getElem.mp hs) i j hi1 hj1 h

theorem calc_median_eq_sorted {Dim : Nat} (nth_element : List ℚ → Nat → List ℚ)
    (cluster : ClusterT Dim) (hpost : NthElementPost nth_element) (hne : cluster ≠ []) :
    ∃ m, calc_median nth_element cluster = some m ∧
      ((cluster.map (fun point => point.Dist (centroid cluster))).insertionSort
        (· ≤ ·))[cluster.length / 2]? = some m := by
  have hpos : 0 < cluster.length := List.length_pos.mpr hne
  have hempty : cluster.isEmpty = false := by
    cases cluster with
    | nil => exact absurd rfl hne
    | cons a t => rfl
  have hhalf : (cluster.map (fun point => point.Dist (centroid cluster))).length / 2 <
      (cluster.map (fun point => point.Dist (centroid cluster))).length := by
    rw [List.length_map]
    exact Nat.div_lt_self hpos (by norm_num)
  obtain ⟨hperm, hpart⟩ := hpost _ _ hhalf
  obtain ⟨m, hm, hs⟩ := nth_eq_sorted _ _ _ hhalf hperm hpart
  refine ⟨m, ?_, by simpa using hs⟩
  simp only [calc_median, hempty, centerLoop_centroid cluster hne]
  simpa using hm

theorem Dist_self {Dim : Nat} (p : Point Dim) : p.Dist p = 0 := by
  refine le_antisymm ?_ (Dist_nonneg p p)
  unfold Point.Dist
  rw [Norm_le_iff]
  simp [Point.sub]

theorem centroid_replicate {Dim : Nat} (N : Nat) (p : Point Dim) (hN : 1 ≤ N) :
    centroid (List.replicate N p) = p := by
  have hN0 : (N : ℚ) ≠ 0 := by
    have : 0 < N := hN
    exact_mod_cast this.ne'
  unfold centroid
  cases p with
  | mk data =>
    congr 1
    funext i
    simp only [List.map_replicate, List.sum_replicate, List.length_replicate, nsmul_eq_mul]
    field_simp

/-- C12: with `std::nth_element` doing what the C++ standard says, `calc_median`
returns `0` for every partition of at most one point: through the guard for
the empty partition, and as the distance of the point to itself for a single
point. -/
theorem calc_median_at_most_one {Dim : Nat} (nth_element : List ℚ → Nat → List ℚ)
    (cluster : ClusterT Dim) (hpost : NthElementPost nth_element)
    (hsize : cluster.length ≤ 1) :
    calc_median nth_element cluster = some 0 := by
  cases cluster with
  | nil => simp [calc_median]
  | cons p t =>
    have ht : t = [] := by
      cases t with
      | nil => rfl
      | cons q u => simp at hsize
    subst ht
    obtain ⟨m, hm, hs⟩ := calc_median_eq_sorted nth_element [p] hpost (by simp)
    have hc : centroid [p] = p := centroid_replicate 1 p le_rfl
    rw [hc] at hs
    have hlen : [p].length / 2 = 0 := by simp
    rw [hlen, List.map_cons, List.map_nil, Dist_self] at hs
    have h0 : (0 : ℚ) = m := by
      simpa [List.insertionSort, List.orderedInsert] using hs
    rw [hm, ← h0]

theorem calc_median_at_most_one_witness :
    NthElementPost nth_element_by_sort ∧ [(⟨![3, -4]⟩ : Point 2)].length ≤ 1 ∧
      calc_median nth_element_by_sort [(⟨![3, -4]⟩ : Point 2)] = some 0 :=
  ⟨nth_element_by_sort_post, by simp,
    calc_median_at_most_one nth_element_by_sort [(⟨![3, -4]⟩ : Point 2)]
      nth_element_by_sort_post (by simp)⟩

/-- C13: for `N ≥ 1` copies of one point, `calc_stddev` returns `sqrtf(0)`, which
is `0` for a `sqrtf` with `sqrtf(0) = 0` (coordinates read as exact
numbers). -/
theorem calc_stddev_identical {Dim : Nat} (sqrtf : ℚ → ℚ) (N : Nat) (p : Point Dim)
    (hN : 1 ≤ N) (hsqrt : sqrtf 0 = 0) :
    calc_stddev sqrtf (List.replicate N p) = some 0 := by
  have hne : List.replicate N p ≠ [] := by
    intro h
    have := congrArg List.length h
    simp at this
    omega
  have hsize : (List.replicate N p).length ≠ 0 := fun h => hne (List.length_eq_zero.mp h)
  simp only [calc_stddev, centerLoop_centroid _ hne, sumLoop_eq _ hsize,
    centroid_replicate N p hN, List.map_replicate, Dist_self, List.sum_replicate]
  simp [hsqrt]

theorem calc_stddev_identical_witness :
    1 ≤ 3 ∧ (fun x : ℚ => x) 0 = 0 ∧
      calc_stddev (fun x => x) (List.replicate 3 (⟨![3, -4]⟩ : Point 2)) = some 0 :=
  ⟨by decide, rfl,
    calc_stddev_identical (fun x => x) 3 (⟨![3, -4]⟩ : Point 2) (by decide) rfl⟩

/-! ## The rejection loop of `RandomPoint` -/

theorem RandomPoint_accept_first (Dim fuel : Nat) (rd : Nat → ℚ) (hfuel : 1 ≤ fuel)
    (hrd : ∀ i : Fin Dim, |rd i| ≤ 1) :
    RandomPoint Dim fuel rd = some (⟨fun i => rd i⟩, fun k => rd (k + Dim)) := by
  obtain ⟨f, rfl⟩ : ∃ f, fuel = f + 1 := ⟨fuel - 1, by omega⟩
  have hnorm : (⟨fun i => rd i⟩ : Point Dim).Norm ≤ 1 :=
    (Norm_le_iff _ 1).mpr ⟨by norm_num, fun i => hrd i⟩
  simp [RandomPoint, hnorm]

theorem RandomPoint_norm_le (Dim fuel : Nat) (rd : Nat → ℚ) (p : Point Dim) (rd1 : Nat → ℚ)
    (h : RandomPoint Dim fuel rd = some (p, rd1)) : p.Norm ≤ 1 := by
  induction fuel generalizing rd with
  | zero => simp [RandomPoint] at h
  | succ f ih =>
    simp only [RandomPoint] at h
    by_cases hn : (⟨fun i => rd i⟩ : Point Dim).Norm ≤ 1
    · simp only [hn, if_true, Option.some.injEq, Prod.mk.injEq] at h
      rw [← h.1]
      exact hn
    · simp only [hn, if_false] at h
      exact ih _ h

/-- C14: whenever `RandomPoint` returns, the point it returns has `Norm() <= 1`;
and it does return, already when one iteration is allowed, when the first
`Dim` values drawn lie in `[-1, 1]`. -/
theorem RandomPoint_in_unit_ball (Dim fuel : Nat) (rd : Nat → ℚ) :
    (∀ p rd1, RandomPoint Dim fuel rd = some (p, rd1) → p.Norm ≤ 1) ∧
      (1 ≤ fuel → (∀ i : Fin Dim, |rd i| ≤ 1) →
        ∃ p rd1, RandomPoint Dim fuel rd = some (p, rd1)) :=
  ⟨fun p rd1 h => RandomPoint_norm_le Dim fuel rd p rd1 h,
    fun hfuel hrd => ⟨_, _, RandomPoint_accept_first Dim fuel rd hfuel hrd⟩⟩

theorem RandomPoint_in_unit_ball_witness :
    ∃ p rd1, RandomPoint 1 2 (fun k => if k = 0 then 5 else 0) = some (p, rd1) ∧
      p.data_ 0 = 0 ∧ p.Norm ≤ 1 := by
  have h : RandomPoint 1 2 (fun k => if k = 0 then 5 else 0) =
      some (⟨fun _ => 0⟩, fun _ => 0) := by
    simp [RandomPoint, Point.Norm, Point.NormStep, List.ofFn_succ]
  exact ⟨_, _, h, rfl,
    (RandomPoint_in_unit_ball 1 2 (fun k => if k = 0 then 5 else 0)).1 _ _ h⟩

/-- C19: when the first `Dim` values drawn lie in `[-1, 1]`, the acceptance test
`Norm() <= 1` holds for them, and `RandomPoint` returns them unchanged as
soon as one iteration is allowed, leaving the generator advanced by exactly
`Dim` draws: the loop is left in its first iteration. -/
theorem RandomPoint_first_draw (Dim fuel : Nat) (rd : Nat → ℚ) (hfuel : 1 ≤ fuel)
    (hrd : ∀ i : Fin Dim, |rd i| ≤ 1) :
    (⟨fun i => rd i⟩ : Point Dim).Norm ≤ 1 ∧
      RandomPoint Dim 1 rd = some (⟨fun i => rd i⟩, fun k => rd (k + Dim)) ∧
      RandomPoint Dim fuel rd = some (⟨fun i => rd i⟩, fun k => rd (k + Dim)) :=
  ⟨(Norm_le_iff _ 1).mpr ⟨by norm_num, fun i => hrd i⟩,
    RandomPoint_accept_first Dim 1 rd le_rfl hrd,
    RandomPoint_accept_first Dim fuel rd hfuel hrd⟩

theorem RandomPoint_first_draw_witness :
    1 ≤ 3 ∧
      RandomPoint 2 3 (fun k => if k = 0 then 1 else if k = 1 then -1 else 7) =
        some (⟨fun i => if (i : Nat) = 0 then 1 else if (i : Nat) = 1 then -1 else 7⟩,
          fun k => if k + 2 = 0 then 1 else if k + 2 = 1 then -1 else 7) :=
  ⟨by decide,
    (RandomPoint_first_draw 2 3 (fun k => if k = 0 then 1 else if k = 1 then -1 else 7)
      (by decide) (by
        intro i
        fin_cases i <;> simp)).2.2⟩

/-! ## Printing a vector -/

theorem intercalate_go_append (pre acc sep : String) (l : List String) :
    String.intercalate.go (pre ++ acc) sep l = pre ++ String.intercalate.go acc sep l := by
  induction l generalizing acc with
  | nil => simp [String.intercalate.go]
  | cons a t ih =>
    simp only [String.intercalate.go]
    rw [← ih]
    simp only [String.append_assoc]

theorem operator_shl_loop_cons {T : Type} (render : T → String) (x : T) (rest : List T)
    (stream : String) :
    operator_shl.loop render (x :: rest) stream =
      String.intercalate.go (stream ++ render x) ", " (rest.map render) := by
  induction rest generalizing x stream with
  | nil => simp [operator_shl.loop, String.intercalate.go]
  | cons y t ih =>
    rw [operator_shl.loop]
    simp only [List.isEmpty_cons, Bool.false_eq_true, if_false, List.map_cons,
      String.intercalate.go]
    exact ih y _

/-- C15: the vector `operator<<` appends to the stream an opening brace, the
renderings of the elements in order with `, ` between consecutive ones and
nothing after the last, and a closing brace; for the empty vector it appends
the two braces only. -/
theorem operator_shl_format {T : Type} (render : T → String) (stream : String)
    (vec : List T) :
    operator_shl render stream vec =
        stream ++ "\x7b" ++ ", ".intercalate (vec.map render) ++ "\x7d" ∧
      operator_shl render stream ([] : List T) = stream ++ "\x7b\x7d" := by
  constructor
  · cases vec with
    | nil => simp [operator_shl, operator_shl.loop, String.intercalate]
    | cons x rest =>
      simp only [operator_shl, operator_shl_loop_cons, List.map_cons, String.intercalate]
      rw [intercalate_go_append]
  · simp only [operator_shl, operator_shl.loop, String.append_assoc]
    rfl

theorem operator_shl_format_witness :
    operator_shl (fun n : Nat => toString n) "out: " [1, 2, 3] = "out: \x7b1, 2, 3\x7d" :=
  (operator_shl_format (fun n : Nat => toString n) "out: " [1, 2, 3]).1.trans (by decide)

/-! ## The chunks of `ApplyFuncToClusters` -/

theorem bounds_fst (size num_workers i : Nat) :
    (ApplyFuncToClusters.bounds size num_workers i).1 = i * (size / num_workers) := rfl

theorem bounds_snd_last (size num_workers i : Nat) (h : i + 1 = num_workers) :
    (ApplyFuncToClusters.bounds size num_workers i).2 = size := by
  simp [ApplyFuncToClusters.bounds, h]

theorem bounds_snd_inner (size num_workers i : Nat) (h : i + 1 ≠ num_workers) :
    (ApplyFuncToClusters.bounds size num_workers i).2 = (i + 1) * (size / num_workers) := by
  simp [ApplyFuncToClusters.bounds, h]

theorem bounds_le (size num_workers i : Nat) (hi : i < num_workers) :
    (ApplyFuncToClusters.bounds size num_workers i).1 ≤
        (ApplyFuncToClusters.bounds size num_workers i).2 ∧
      (ApplyFuncToClusters.bounds size num_workers i).2 ≤ size := by
  have hle : num_workers * (size / num_workers) ≤ size := Nat.mul_div_le size num_workers
  rw [bounds_fst]
  by_cases hlast : i + 1 = num_workers
  · rw [bounds_snd_last _ _ _ hlast]
    have h1 : i * (size / num_workers) ≤ num_workers * (size / num_workers) :=
      Nat.mul_le_mul_right _ (by omega)
    omega
  · rw [bounds_snd_inner _ _ _ hlast]
    have h1 : (i + 1) * (size / num_workers) ≤ num_workers * (size / num_workers) :=
      Nat.mul_le_mul_right _ (by omega)
    have h2 : i * (size / num_workers) ≤ (i + 1) * (size / num_workers) :=
      Nat.mul_le_mul_right _ (by omega)
    omega

theorem bounds_disjoint (size num_workers i j : Nat) (hij : i < j) (hj : j < num_workers) :
    (ApplyFuncToClusters.bounds size num_workers i).2 ≤
      (ApplyFuncToClusters.bounds size num_workers j).1 := by
  rw [bounds_fst, bounds_snd_inner _ _ _ (by omega)]
  exact Nat.mul_le_mul_right _ (by omega)

/-- C16: with at least one worker, every range `[begin_i, end_i)` is well formed
and lies within `[0, n)`; the ranges are contiguous (the first begins at `0`,
each ends where the next begins, the last ends at `n`) and pairwise disjoint;
and every index below `n` lies in exactly one of them. -/
theorem bounds_partition (size num_workers : Nat) (hW : 1 ≤ num_workers) :
    (∀ i, i < num_workers →
        (ApplyFuncToClusters.bounds size num_workers i).1 ≤
            (ApplyFuncToClusters.bounds size num_workers i).2 ∧
          (ApplyFuncToClusters.bounds size num_workers i).2 ≤ size) ∧
      (ApplyFuncToClusters.bounds size num_workers 0).1 = 0 ∧
      (∀ i, i + 1 < num_workers →
        (ApplyFuncToClusters.bounds size num_workers i).2 =
          (ApplyFuncToClusters.bounds size num_workers (i + 1)).1) ∧
      (ApplyFuncToClusters.bounds size num_workers (num_workers - 1)).2 = size ∧
      (∀ i j, i < j → j < num_workers →
        (ApplyFuncToClusters.bounds size num_workers i).2 ≤
          (ApplyFuncToClusters.bounds size num_workers j).1) ∧
      ∀ ix, ix < size →
        ∃! i, i < num_workers ∧ (ApplyFuncToClusters.bounds size num_workers i).1 ≤ ix ∧
          ix < (ApplyFuncToClusters.bounds size num_workers i).2 := by
  refine ⟨fun i hi => bounds_le size num_workers i hi, by simp [bounds_fst], ?_, ?_,
    fun i j hij hj => bounds_disjoint size num_workers i j hij hj, ?_⟩
  · intro i hi
    rw [bounds_snd_inner _ _ _ (by omega), bounds_fst]
  · exact bounds_snd_last _ _ _ (by omega)
  · intro ix hix
    have hmem := (mem_writes size num_workers ix hW).mpr hix
    unfold ApplyFuncToClusters.writes at hmem
    obtain ⟨i, hi, hin⟩ := List.mem_flatMap.mp hmem
    rw [List.mem_range] at hi
    rw [mem_workerLoop] at hin
    refine ⟨i, ⟨hi, hin.1, hin.2⟩, ?_⟩
    rintro j ⟨hj, hj1, hj2⟩
    rcases Nat.lt_trichotomy j i with h | h | h
    · have := bounds_disjoint size num_workers j i h hi
      omega
    · exact h
    · have := bounds_disjoint size num_workers i j h hj
      omega

theorem bounds_partition_witness :
    1 ≤ 3 ∧ (List.range 3).map (ApplyFuncToClusters.bounds 7 3) = [(0, 2), (2, 4), (4, 7)] ∧
      ∀ ix, ix < 7 →
        ∃! i, i < 3 ∧ (ApplyFuncToClusters.bounds 7 3 i).1 ≤ ix ∧
          ix < (ApplyFuncToClusters.bounds 7 3 i).2 :=
  ⟨by decide, by decide, (bounds_partition 7 3 (by decide)).2.2.2.2.2⟩

theorem workerLoop_length (size num_workers i : Nat) :
    (ApplyFuncToClusters.workerLoop size num_workers i).length =
      if i + 1 = num_workers then size / num_workers + size % num_workers
      else size / num_workers := by
  unfold ApplyFuncToClusters.workerLoop
  simp only [List.length_range']
  rw [bounds_fst]
  by_cases hlast : i + 1 = num_workers
  · rw [bounds_snd_last _ _ _ hlast, if_pos hlast]
    have h1 := Nat.div_add_mod size num_workers
    have h2 : num_workers * (size / num_workers) =
        i * (size / num_workers) + size / num_workers := by
      rw [← hlast, Nat.add_mul, Nat.one_mul]
    generalize size / num_workers = q at h1 h2 ⊢
    generalize size % num_workers = r at h1 ⊢
    omega
  · rw [bounds_snd_inner _ _ _ hlast, if_neg hlast, Nat.add_mul, Nat.one_mul]
    generalize size / num_workers = q
    omega

/-- C17 (as amended): every chunk but the last has `n / W` elements and the last
has `n / W + n % W` elements (integer division and remainder), so two chunks
differ by at most `n % W` elements. -/
theorem chunk_sizes (size num_workers : Nat) :
    (∀ i, (ApplyFuncToClusters.workerLoop size num_workers i).length =
        if i + 1 = num_workers then size / num_workers + size % num_workers
        else size / num_workers) ∧
      ∀ i j, (ApplyFuncToClusters.workerLoop size num_workers i).length ≤
        (ApplyFuncToClusters.workerLoop size num_workers j).length + size % num_workers := by
  refine ⟨workerLoop_length size num_workers, fun i j => ?_⟩
  rw [workerLoop_length, workerLoop_length]
  split_ifs <;> omega

theorem chunk_sizes_witness :
    (ApplyFuncToClusters.workerLoop 5 3 2).length = 5 / 3 + 5 % 3 ∧
      (ApplyFuncToClusters.workerLoop 5 3 2).length ≤
        (ApplyFuncToClusters.workerLoop 5 3 0).length + 5 % 3 :=
  ⟨((chunk_sizes 5 3).1 2).trans (by decide), (chunk_sizes 5 3).2 2 0⟩

/-- C17 (as stated) fails: five clusters over three workers give chunks of one,
one and three clusters. -/
theorem chunk_sizes_counterexample :
    (List.range 3).map (fun i => (ApplyFuncToClusters.workerLoop 5 3 i).length) = [1, 1, 3] := by
  decide

/-! ## Order of the worker buffers -/

/-- C18: for worker buffers whose indices are all below `N`, the merge step
returns for the buffers in any permuted order partitions that are, index by
index, permutations of the partitions returned for the original order. -/
theorem merge_perm {Dim : Nat} (N : Nat) (results results1 : List (List (Point Dim × Nat)))
    (hperm : results1.Perm results) (hidx : ∀ b ∈ results, ∀ e ∈ b, e.2 < N) :
    ∃ parts parts1, GetPointClusters.merge N results = some parts ∧
      GetPointClusters.merge N results1 = some parts1 ∧
      parts.length = N ∧ parts1.length = N ∧
      ∀ i, i < N → ∃ c c1, parts[i]? = some c ∧ parts1[i]? = some c1 ∧ c1.Perm c := by
  obtain ⟨parts, hm, hlen, hget, _⟩ := merge_spec N results hidx
  obtain ⟨parts1, hm1, hlen1, hget1, _⟩ := merge_spec N results1
    (fun b hb e he => hidx b (hperm.mem_iff.mp hb) e he)
  refine ⟨parts, parts1, hm, hm1, hlen, hlen1, fun i hi => ?_⟩
  exact ⟨_, _, hget i hi, hget1 i hi, ((hperm.flatten).filter _).map _⟩

theorem merge_perm_witness :
    ∃ parts parts1,
      GetPointClusters.merge 2 [[((⟨![1]⟩ : Point 1), 1)], [(⟨![0]⟩, 0), (⟨![2]⟩, 1)]] =
          some parts ∧
        GetPointClusters.merge 2 [[((⟨![0]⟩ : Point 1), 0), (⟨![2]⟩, 1)], [(⟨![1]⟩, 1)]] =
          some parts1 ∧
        ∀ i, i < 2 → ∃ c c1, parts[i]? = some c ∧ parts1[i]? = some c1 ∧ c1.Perm c := by
  obtain ⟨parts, parts1, h1, h2, _, _, h5⟩ := merge_perm 2
    [[((⟨![1]⟩ : Point 1), 1)], [(⟨![0]⟩, 0), (⟨![2]⟩, 1)]]
    [[((⟨![0]⟩ : Point 1), 0), (⟨![2]⟩, 1)], [(⟨![1]⟩, 1)]]
    (List.Perm.swap _ _ _) (by
      intro b hb e he
      simp only [List.mem_cons, List.mem_singleton, List.not_mem_nil, or_false] at hb
      rcases hb with rfl | rfl
      · simp only [List.mem_singleton] at he
        subst he
        decide
      · simp only [List.mem_cons, List.mem_singleton, List.not_mem_nil, or_false] at he
        rcases he with rfl | rfl <;> decide)
  exact ⟨parts, parts1, h1, h2, h5⟩

/-! ## The sentinel of `FindNNIndex` on the unit ball -/

theorem Dist_le_two {Dim : Nat} (p q : Point Dim) (hp : p.Norm ≤ 1) (hq : q.Norm ≤ 1) :
    p.Dist q ≤ 2 := by
  unfold Point.Dist
  rw [Norm_le_iff]
  refine ⟨by norm_num, fun i => ?_⟩
  have h1 := le_trans (abs_le_Norm p i) hp
  have h2 := le_trans (abs_le_Norm q i) hq
  simp only [Point.sub]
  have h3 : |q.data_ i - p.data_ i| ≤ |q.data_ i| + |p.data_ i| := abs_sub _ _
  linarith

/-- C20: two points of norm at most `1` are at distance at most `2`, which is
below the sentinel `FLT_MAX`; hence, for a non-empty seed set and a query all
of norm at most `1`, the scan takes the distance of seed `0` in place of the
sentinel, and the index returned is that of a seed whose distance was compared
and is below the sentinel and minimal. -/
theorem unit_ball_below_sentinel (Dim : Nat) :
    (∀ p q : Point Dim, p.Norm ≤ 1 → q.Norm ≤ 1 → p.Dist q ≤ 2 ∧ p.Dist q < FLT_MAX) ∧
      ∀ (v : Voronoi Dim) (point : Point Dim), 1 ≤ v.points_.length →
        (∀ s ∈ v.points_, s.Norm ≤ 1) → point.Norm ≤ 1 →
          (∀ s0 rest, v.points_ = s0 :: rest →
            v.FindNNIndex point = Voronoi.FindNNLoop point rest 1 0 (s0.Dist point)) ∧
          ∃ s, v.points_[v.FindNNIndex point]? = some s ∧ s.Dist point < FLT_MAX ∧
            ∀ t ∈ v.points_, s.Dist point ≤ t.Dist point := by
  have hball : ∀ p q : Point Dim, p.Norm ≤ 1 → q.Norm ≤ 1 →
      p.Dist q ≤ 2 ∧ p.Dist q < FLT_MAX := by
    intro p q hp hq
    have h2 := Dist_le_two p q hp hq
    refine ⟨h2, lt_of_le_of_lt h2 ?_⟩
    unfold FLT_MAX
    norm_num
  refine ⟨hball, fun v point hN hseeds hpoint => ⟨?_, ?_⟩⟩
  · intro s0 rest hv
    have hlt : s0.Dist point < FLT_MAX :=
      (hball s0 point (hseeds s0 (by rw [hv]; exact List.mem_cons_self _ _)) hpoint).2
    simp [Voronoi.FindNNIndex, hv, Voronoi.FindNNLoop, hlt]
  · unfold Voronoi.FindNNIndex
    rcases FindNNLoop_spec point v.points_ 0 0 FLT_MAX with
      ⟨hall, _⟩ | ⟨k, s, hk, hr, hlt, hmin, _⟩
    · obtain ⟨s0, hs0⟩ := List.exists_mem_of_length_pos hN
      exact absurd (hball s0 point (hseeds s0 hs0) hpoint).2 (not_lt.mpr (hall s0 hs0))
    · rw [hr, Nat.zero_add]
      exact ⟨s, hk, hlt, hmin⟩

theorem unit_ball_below_sentinel_witness :
    (⟨![1, -1]⟩ : Point 2).Norm ≤ 1 ∧ (⟨![-1, 1]⟩ : Point 2).Norm ≤ 1 ∧
      (⟨![1, -1]⟩ : Point 2).Dist ⟨![-1, 1]⟩ = 2 ∧
      (⟨![1, -1]⟩ : Point 2).Dist ⟨![-1, 1]⟩ < FLT_MAX := by
  have hp : (⟨![1, -1]⟩ : Point 2).Norm ≤ 1 := by
    simp [Point.Norm, Point.NormStep, List.ofFn_succ]
  have hq : (⟨![-1, 1]⟩ : Point 2).Norm ≤ 1 := by
    simp [Point.Norm, Point.NormStep, List.ofFn_succ]
  refine ⟨hp, hq, ?_, ((unit_ball_below_sentinel 2).1 _ _ hp hq).2⟩
  simp [Point.Dist, Point.sub, Point.Norm, Point.NormStep, List.ofFn_succ]
  norm_num

/-! ## Rounding to `float` -/

theorem roundToMultiple_spec (q x : ℚ) (hq : 0 < q) :
    ∃ m : ℤ, roundToMultiple q x = m * q ∧ |(m : ℚ) * q - x| ≤ q / 2 := by
  have hfl : ((⌊x / q⌋ : ℤ) : ℚ) ≤ x / q := Int.floor_le _
  have hlt : x / q < ((⌊x / q⌋ : ℤ) : ℚ) + 1 := Int.lt_floor_add_one _
  have key : ∀ m : ℤ, |(m : ℚ) - x / q| ≤ 1 / 2 → |(m : ℚ) * q - x| ≤ q / 2 := by
    intro m hm
    have : (m : ℚ) * q - x = ((m : ℚ) - x / q) * q := by field_simp
    rw [this, abs_mul, abs_of_pos hq]
    nlinarith
  unfold roundToMultiple
  simp only
  split_ifs with h1 h2 h3
  · refine ⟨_, rfl, key _ ?_⟩
    rw [abs_le]; constructor <;> linarith
  · refine ⟨_, rfl, key _ ?_⟩
    push_cast
    rw [abs_le]; constructor <;> linarith
  · refine ⟨_, rfl, key _ ?_⟩
    rw [abs_le]; constructor <;> linarith
  · refine ⟨_, rfl, key _ ?_⟩
    push_cast
    rw [abs_le]; constructor <;> linarith

theorem binade_bounds (x : ℚ) (hx : |x| ≤ FLT_MAX + 1) :
    -126 ≤ max (Int.log 2 |x|) (-126) ∧ max (Int.log 2 |x|) (-126) ≤ 127 ∧
      |x| < (2 : ℚ) ^ (max (Int.log 2 |x|) (-126) + 1) := by
  refine ⟨le_max_right _ _, ?_, ?_⟩
  · apply max_le _ (by norm_num)
    rcases eq_or_lt_of_le (abs_nonneg x) with h0 | hpos
    · rw [← h0, Int.log_zero_right]
      norm_num
    · have hlt : |x| < ((2 : ℕ) : ℚ) ^ (128 : ℤ) := by
        refine lt_of_le_of_lt hx ?_
        unfold FLT_MAX
        norm_num
      have := (Int.lt_zpow_iff_log_lt (by norm_num : 1 < 2) hpos).mp hlt
      omega
  · have h1 : |x| < ((2 : ℕ) : ℚ) ^ (Int.log 2 |x| + 1) :=
      Int.lt_zpow_succ_log_self (by norm_num) _
    refine lt_of_lt_of_le h1 ?_
    push_cast
    exact zpow_le_zpow_right₀ (by norm_num) (by have := le_max_left (Int.log 2 |x|) (-126); omega)

theorem round_f32_finite : FiniteRounding round_f32 := by
  intro x hx
  obtain ⟨he1, he2, hlt⟩ := binade_bounds x hx
  unfold round_f32
  generalize max (Int.log 2 |x|) (-126) = e at he1 he2 hlt
  have hq : (0 : ℚ) < (2 : ℚ) ^ (e - 23) := zpow_pos (by norm_num) _
  obtain ⟨m, hm, herr⟩ := roundToMultiple_spec ((2 : ℚ) ^ (e - 23)) x hq
  rw [hm]
  have hbound : |(m : ℚ) * (2 : ℚ) ^ (e - 23)| ≤ |x| + (2 : ℚ) ^ (e - 23) / 2 := by
    have h1 : |(m : ℚ) * (2 : ℚ) ^ (e - 23)| ≤
        |(m : ℚ) * (2 : ℚ) ^ (e - 23) - x| + |x| := by
      have := abs_add ((m : ℚ) * (2 : ℚ) ^ (e - 23) - x) x
      simpa using this
    linarith
  by_cases hsmall : e ≤ 24
  · have hq2 : (2 : ℚ) ^ (e - 23) ≤ (2 : ℚ) ^ (1 : ℤ) :=
      zpow_le_zpow_right₀ (by norm_num) (by omega)
    have hx2 : (2 : ℚ) ^ (e + 1) ≤ (2 : ℚ) ^ (25 : ℤ) :=
      zpow_le_zpow_right₀ (by norm_num) (by omega)
    have h25 : (2 : ℚ) ^ (25 : ℤ) + 1 ≤ FLT_MAX := by
      unfold FLT_MAX
      norm_num
    have h21 : (2 : ℚ) ^ (1 : ℤ) = 2 := by norm_num
    linarith
  · obtain ⟨j, hj⟩ : ∃ j : ℕ, e - 23 = (j : ℤ) := ⟨(e - 23).toNat, by omega⟩
    have hj2 : 2 ≤ j := by omega
    have hj104 : j ≤ 104 := by omega
    rw [hj, zpow_natCast] at hbound herr hq ⊢
    have hK : FLT_MAX = ((((2 : ℤ) ^ 24 - 1) * 2 ^ (104 - j) : ℤ) : ℚ) * (2 : ℚ) ^ j := by
      have h104 : (2 : ℚ) ^ (104 - j) * 2 ^ j = 2 ^ 104 := by
        rw [← pow_add]
        congr 1
        omega
      push_cast
      rw [mul_assoc, h104]
      unfold FLT_MAX
      norm_num
    have hq4 : (4 : ℚ) ≤ (2 : ℚ) ^ j := by
      calc (4 : ℚ) = 2 ^ 2 := by norm_num
        _ ≤ 2 ^ j := pow_le_pow_right₀ (by norm_num) hj2
    have habs : |(m : ℚ) * (2 : ℚ) ^ j| = ((|m| : ℤ) : ℚ) * (2 : ℚ) ^ j := by
      rw [abs_mul, abs_of_pos hq, Int.cast_abs]
    rw [habs] at hbound ⊢
    rw [hK]
    apply mul_le_mul_of_nonneg_right _ (le_of_lt hq)
    have hlt2 : ((|m| : ℤ) : ℚ) * (2 : ℚ) ^ j <
        ((((2 : ℤ) ^ 24 - 1) * 2 ^ (104 - j) + 1 : ℤ) : ℚ) * (2 : ℚ) ^ j := by
      have : ((((2 : ℤ) ^ 24 - 1) * 2 ^ (104 - j) + 1 : ℤ) : ℚ) * (2 : ℚ) ^ j =
          FLT_MAX + (2 : ℚ) ^ j := by
        rw [hK]
        push_cast
        ring
      rw [this]
      linarith
    have hlt3 : ((|m| : ℤ) : ℚ) < ((((2 : ℤ) ^ 24 - 1) * 2 ^ (104 - j) + 1 : ℤ) : ℚ) :=
      lt_of_mul_lt_mul_right hlt2 (le_of_lt hq)
    have hlt4 : |m| < ((2 : ℤ) ^ 24 - 1) * 2 ^ (104 - j) + 1 := by exact_mod_cast hlt3
    exact_mod_cast Int.lt_add_one_iff.mp hlt4

theorem log_eq_of_bounds (x : ℚ) (e : ℤ) (h1 : (2 : ℚ) ^ e ≤ x) (h2 : x < (2 : ℚ) ^ (e + 1)) :
    Int.log 2 x = e := by
  have hpos : 0 < x := lt_of_lt_of_le (zpow_pos (by norm_num) _) h1
  have ha : e ≤ Int.log 2 x :=
    (Int.zpow_le_iff_le_log (by norm_num : 1 < 2) hpos).mp (by push_cast; exact h1)
  have hb : Int.log 2 x < e + 1 :=
    (Int.lt_zpow_iff_log_lt (by norm_num : 1 < 2) hpos).mp (by push_cast; exact h2)
  omega

theorem roundToMultiple_eval (q x : ℚ) (n : ℤ) (h1 : (n : ℚ) ≤ x / q)
    (h2 : x / q < (n : ℚ) + 1) :
    roundToMultiple q x =
      ((if x / q - n < 1 / 2 then n else if 1 / 2 < x / q - n then n + 1
        else if n % 2 = 0 then n else n + 1 : ℤ) : ℚ) * q := by
  have hfloor : ⌊x / q⌋ = n := Int.floor_eq_iff.mpr ⟨h1, h2⟩
  unfold roundToMultiple
  simp only [hfloor]

theorem round_f32_two : round_f32 2 = 2 := by
  unfold round_f32
  rw [log_eq_of_bounds |2| 1 (by norm_num) (by norm_num)]
  rw [roundToMultiple_eval _ _ 8388608 (by norm_num) (by norm_num)]
  norm_num

theorem round_f32_below_two : round_f32 (33554431 / 16777216) = 2 := by
  unfold round_f32
  rw [log_eq_of_bounds |33554431 / 16777216| 0 (by norm_num [abs_of_pos])
    (by norm_num [abs_of_pos])]
  rw [roundToMultiple_eval _ _ 16777215 (by norm_num) (by norm_num)]
  norm_num

theorem round_f32_zero : round_f32 0 = 0 := by
  simp [round_f32, roundToMultiple]

theorem round_f32_three : round_f32 3 = 3 := by
  unfold round_f32
  rw [log_eq_of_bounds |3| 1 (by norm_num) (by norm_num)]
  rw [roundToMultiple_eval _ _ 12582912 (by norm_num) (by norm_num)]
  norm_num

theorem round_f32_third : round_f32 (1 / 3) = 11184811 / 33554432 := by
  unfold round_f32
  rw [log_eq_of_bounds |1 / 3| (-2) (by norm_num [abs_of_pos]) (by norm_num [abs_of_pos])]
  rw [roundToMultiple_eval _ _ 11184810 (by norm_num) (by norm_num)]
  norm_num

theorem round_f32_third_fixed : round_f32 (11184811 / 33554432) = 11184811 / 33554432 := by
  unfold round_f32
  rw [log_eq_of_bounds |11184811 / 33554432| (-2) (by norm_num [abs_of_pos])
    (by norm_num [abs_of_pos])]
  rw [roundToMultiple_eval _ _ 11184811 (by norm_num) (by norm_num)]
  norm_num

theorem round_f32_third_sub_one :
    round_f32 (-(22369621 / 33554432)) = -(5592405 / 8388608) := by
  unfold round_f32
  rw [log_eq_of_bounds |-(22369621 / 33554432)| (-1) (by norm_num [abs_of_pos])
    (by norm_num [abs_of_pos])]
  rw [roundToMultiple_eval _ _ (-11184811) (by norm_num) (by norm_num)]
  norm_num

theorem FindNNIndexF_tie :
    Voronoi.FindNNIndexF round_f32 ⟨[(⟨![-1]⟩ : Point 1), ⟨![-1 + 1 / 16777216]⟩]⟩ ⟨![1]⟩ = 0 := by
  have h0 : round_f32 (1 + 1) = 2 := by
    rw [show (1 : ℚ) + 1 = 2 by norm_num]; exact round_f32_two
  have h1 : round_f32 (1 - (-1 + 16777216⁻¹)) = 2 := by
    rw [show (1 : ℚ) - (-1 + 16777216⁻¹) = 33554431 / 16777216 by norm_num]
    exact round_f32_below_two
  simp [Voronoi.FindNNIndexF, Voronoi.FindNNLoopF, Point.DistF, Point.subF, Point.Norm,
    Point.NormStep, List.ofFn_succ, FLT_MAX, h0, h1]

/-! ## Nearest-seed lookup in `float` arithmetic -/

theorem FindNNLoopF_spec {Dim : Nat} (fl : ℚ → ℚ) (point : Point Dim) (rest : List (Point Dim))
    (i min_index : Nat) (min_dist : ℚ) :
    ((∀ s ∈ rest, min_dist ≤ s.DistF fl point) ∧
        Voronoi.FindNNLoopF fl point rest i min_index min_dist = min_index) ∨
      ∃ k s, rest[k]? = some s ∧
        Voronoi.FindNNLoopF fl point rest i min_index min_dist = i + k ∧
        s.DistF fl point < min_dist ∧
        (∀ t ∈ rest, s.DistF fl point ≤ t.DistF fl point) ∧
        ∀ j t, j < k → rest[j]? = some t → s.DistF fl point < t.DistF fl point := by
  induction rest generalizing i min_index min_dist with
  | nil => left; simp [Voronoi.FindNNLoopF]
  | cons a rest ih =>
    by_cases h : a.DistF fl point < min_dist
    · have hstep : Voronoi.FindNNLoopF fl point (a :: rest) i min_index min_dist =
          Voronoi.FindNNLoopF fl point rest (i + 1) i (a.DistF fl point) := by
        simp [Voronoi.FindNNLoopF, h]
      right
      rcases ih (i + 1) i (a.DistF fl point) with ⟨hall, hr⟩ | ⟨k, s, hk, hr, hlt, hmin, hfirst⟩
      · refine ⟨0, a, by simp, by rw [hstep, hr]; rfl, h, ?_, ?_⟩
        · intro t ht
          rcases List.mem_cons.mp ht with rfl | ht
          · exact le_rfl
          · exact hall t ht
        · intro j t hj
          omega
      · refine ⟨k + 1, s, by simpa using hk, by rw [hstep, hr]; omega, lt_trans hlt h, ?_, ?_⟩
        · intro t ht
          rcases List.mem_cons.mp ht with rfl | ht
          · exact le_of_lt hlt
          · exact hmin t ht
        · intro j t hj hjt
          cases j with
          | zero =>
            simp only [List.getElem?_cons_zero, Option.some.injEq] at hjt
            rw [← hjt]; exact hlt
          | succ j =>
            simp only [List.getElem?_cons_succ] at hjt
            exact hfirst j t (by omega) hjt
    · have hstep : Voronoi.FindNNLoopF fl point (a :: rest) i min_index min_dist =
          Voronoi.FindNNLoopF fl point rest (i + 1) min_index min_dist := by
        simp [Voronoi.FindNNLoopF, h]
      have hge : min_dist ≤ a.DistF fl point := not_lt.mp h
      rcases ih (i + 1) min_index min_dist with ⟨hall, hr⟩ | ⟨k, s, hk, hr, hlt, hmin, hfirst⟩
      · left
        refine ⟨?_, by rw [hstep, hr]⟩
        intro t ht
        rcases List.mem_cons.mp ht with rfl | ht
        · exact hge
        · exact hall t ht
      · right
        refine ⟨k + 1, s, by simpa using hk, by rw [hstep, hr]; omega, hlt, ?_, ?_⟩
        · intro t ht
          rcases List.mem_cons.mp ht with rfl | ht
          · exact le_of_lt (lt_of_lt_of_le hlt hge)
          · exact hmin t ht
        · intro j t hj hjt
          cases j with
          | zero =>
            simp only [List.getElem?_cons_zero, Option.some.injEq] at hjt
            rw [← hjt]; exact lt_of_lt_of_le hlt hge
          | succ j =>
            simp only [List.getElem?_cons_succ] at hjt
            exact hfirst j t (by omega) hjt

theorem DistF_le_FLT_MAX {Dim : Nat} (fl : ℚ → ℚ) (s point : Point Dim)
    (hfl : FiniteRounding fl) (hs : s.Norm ≤ 1) (hpoint : ∀ i, |point.data_ i| ≤ FLT_MAX) :
    s.DistF fl point ≤ FLT_MAX := by
  unfold Point.DistF
  rw [Norm_le_iff]
  refine ⟨by unfold FLT_MAX; norm_num, fun i => ?_⟩
  simp only [Point.subF]
  apply hfl
  have h1 : |s.data_ i| ≤ 1 := le_trans (abs_le_Norm s i) hs
  have h2 : |point.data_ i - s.data_ i| ≤ |point.data_ i| + |s.data_ i| := abs_sub _ _
  have h3 := hpoint i
  linarith

theorem fill_norm_le (Dim fuel : Nat) (num_points : Nat) (rd : Nat → ℚ)
    (ps : List (Point Dim)) (h : Voronoi.fill Dim fuel num_points rd = some ps) :
    ∀ s ∈ ps, s.Norm ≤ 1 := by
  induction num_points generalizing rd ps with
  | zero =>
    simp only [Voronoi.fill, Option.some.injEq] at h
    subst h
    simp
  | succ n ih =>
    simp only [Voronoi.fill] at h
    cases hp : RandomPoint Dim fuel rd with
    | none => simp [hp] at h
    | some pr =>
      obtain ⟨point, rd1⟩ := pr
      simp only [hp] at h
      cases hf : Voronoi.fill Dim fuel n rd1 with
      | none => simp [hf] at h
      | some rest =>
        simp only [hf, Option.some.injEq] at h
        subst h
        intro s hs
        rcases List.mem_cons.mp hs with rfl | hs
        · exact RandomPoint_norm_le Dim fuel rd s rd1 hp
        · exact ih rd1 rest hf s hs

theorem construct_norm_le (Dim fuel num_points : Nat) (rd : Nat → ℚ) (v : Voronoi Dim)
    (h : Voronoi.construct Dim fuel num_points rd = some v) :
    ∀ s ∈ v.points_, s.Norm ≤ 1 := by
  unfold Voronoi.construct at h
  cases hf : Voronoi.fill Dim fuel num_points rd with
  | none => simp [hf] at h
  | some ps =>
    simp only [hf, Option.map_some', Option.some.injEq] at h
    subst h
    exact fill_norm_le Dim fuel num_points rd ps hf

/-- C1: for every seed set of at least one seed as the constructor of `Voronoi`
leaves it (every seed of norm at most `1`) and every query point of finite
coordinates, with the distances as `Dist` computes them in `float`
arithmetic, `FindNNIndex` returns an index in range whose seed attains the
minimum distance to the query over all seeds, and every seed at a lower index
is strictly farther: the lowest index attaining the minimum. -/
theorem FindNNIndexF_lowest_argmin {Dim : Nat} (fl : ℚ → ℚ) (v : Voronoi Dim)
    (point : Point Dim) (hN : 1 ≤ v.points_.length) (hfl : FiniteRounding fl)
    (hseeds : ∀ s ∈ v.points_, s.Norm ≤ 1) (hpoint : ∀ i, |point.data_ i| ≤ FLT_MAX) :
    v.FindNNIndexF fl point < v.points_.length ∧
      ∃ s, v.points_[v.FindNNIndexF fl point]? = some s ∧
        (∀ t ∈ v.points_, s.DistF fl point ≤ t.DistF fl point) ∧
        ∀ j t, j < v.FindNNIndexF fl point → v.points_[j]? = some t →
          s.DistF fl point < t.DistF fl point := by
  unfold Voronoi.FindNNIndexF
  rcases FindNNLoopF_spec fl point v.points_ 0 0 FLT_MAX with
    ⟨hall, hr⟩ | ⟨k, s, hk, hr, _, hmin, hfirst⟩
  · rw [hr]
    refine ⟨hN, v.points_[0], List.getElem?_eq_getElem hN, fun t ht => ?_, fun j t hj => ?_⟩
    · have h0 : v.points_[0] ∈ v.points_ := List.getElem_mem hN
      exact le_trans (DistF_le_FLT_MAX fl _ point hfl (hseeds _ h0) hpoint) (hall t ht)
    · omega
  · rw [hr, Nat.zero_add]
    have hlt : k < v.points_.length := (List.getElem?_eq_some.mp hk).1
    exact ⟨hlt, s, hk, hmin, hfirst⟩

/-! ## The median in `float` arithmetic -/

theorem centerLoopF_some {Dim : Nat} (fl : ℚ → ℚ) (size : Nat) (hsize : size ≠ 0)
    (hfl : fl (size : ℚ) ≠ 0) (l : List (Point Dim)) (center : Point Dim) :
    ∃ c, centerLoopF fl size l center = some c := by
  induction l generalizing center with
  | nil => exact ⟨center, rfl⟩
  | cons p t ih =>
    obtain ⟨c, hc⟩ := ih (center.addF fl ⟨fun i => fl (p.data_ i / fl (size : ℚ))⟩)
    exact ⟨c, by simp [centerLoopF, Point.divF, hsize, hfl, hc]⟩

theorem centerLoopF_id {Dim : Nat} (size : Nat) (l : List (Point Dim)) (center : Point Dim) :
    centerLoopF (fun x => x) size l center = centerLoop size l center := by
  induction l generalizing center with
  | nil => rfl
  | cons p t ih =>
    by_cases hsize : size = 0
    · simp [centerLoopF, centerLoop, Point.divF, Point.div, hsize]
    · have hq : (size : ℚ) ≠ 0 := by exact_mod_cast hsize
      simp only [centerLoopF, centerLoop, Point.divF, Point.div, hsize, hq, or_self, if_false]
      exact ih _

/-- C11: for a non-empty partition of `n` points, with the centre and the
distances as the code computes them in `float` arithmetic and
`std::nth_element` doing what the C++ standard says, `calc_median` returns the
element at position `n / 2` (0-based, integer division) of the ascending-sorted
list of the distances of the points to the centre; without rounding that
centre is the component-wise mean of the points. -/
theorem calc_medianF_is_sorted_middle {Dim : Nat} (fl : ℚ → ℚ)
    (nth_element : List ℚ → Nat → List ℚ) (cluster : ClusterT Dim)
    (hpost : NthElementPost nth_element) (hne : cluster ≠ [])
    (hsize : fl (cluster.length : ℚ) ≠ 0) :
    (∃ center m, centerLoopF fl cluster.length cluster (ZeroPoint Dim) = some center ∧
        calc_medianF fl nth_element cluster = some m ∧
        ((cluster.map (fun point => point.DistF fl center)).insertionSort
          (· ≤ ·))[cluster.length / 2]? = some m) ∧
      centerLoopF (fun x => x) cluster.length cluster (ZeroPoint Dim) =
        some (centroid cluster) := by
  have hpos : 0 < cluster.length := List.length_pos.mpr hne
  have hempty : cluster.isEmpty = false := by
    cases cluster with
    | nil => exact absurd rfl hne
    | cons a t => rfl
  refine ⟨?_, by rw [centerLoopF_id]; exact centerLoop_centroid cluster hne⟩
  obtain ⟨center, hc⟩ := centerLoopF_some fl cluster.length (by omega) hsize cluster
    (ZeroPoint Dim)
  have hhalf : (cluster.map (fun point => point.DistF fl center)).length / 2 <
      (cluster.map (fun point => point.DistF fl center)).length := by
    rw [List.length_map]
    exact Nat.div_lt_self hpos (by norm_num)
  obtain ⟨hperm, hpart⟩ := hpost _ _ hhalf
  obtain ⟨m, hm, hs⟩ := nth_eq_sorted _ _ _ hhalf hperm hpart
  refine ⟨center, m, hc, ?_, by simpa using hs⟩
  simp only [calc_medianF, hempty, hc]
  simpa using hm

theorem calc_medianF_thirds :
    calc_medianF round_f32 nth_element_by_sort [(⟨![0]⟩ : Point 1), ⟨![0]⟩, ⟨![1]⟩] =
      some (11184811 / 33554432) := by
  have h3 : round_f32 ((3 : ℕ) : ℚ) = 3 := by
    rw [show ((3 : ℕ) : ℚ) = 3 by norm_num]; exact round_f32_three
  have hc : centerLoopF round_f32 3 [(⟨![0]⟩ : Point 1), ⟨![0]⟩, ⟨![1]⟩] (ZeroPoint 1) =
      some ⟨fun _ => 11184811 / 33554432⟩ := by
    simp only [centerLoopF, Point.divF, h3, Point.addF, ZeroPoint]
    norm_num [round_f32_zero, round_f32_third, round_f32_third_fixed]
  have hd0 : (⟨![0]⟩ : Point 1).DistF round_f32 ⟨fun _ => 11184811 / 33554432⟩ =
      11184811 / 33554432 := by
    simp only [Point.DistF, Point.subF, Point.Norm, List.ofFn_succ, List.ofFn_zero,
      List.foldl, Point.NormStep]
    norm_num [round_f32_third_fixed]
  have hd1 : (⟨![1]⟩ : Point 1).DistF round_f32 ⟨fun _ => 11184811 / 33554432⟩ =
      5592405 / 8388608 := by
    simp only [Point.DistF, Point.subF, Point.Norm, List.ofFn_succ, List.ofFn_zero,
      List.foldl, Point.NormStep]
    norm_num [round_f32_third_sub_one]
  simp only [calc_medianF, List.isEmpty_cons, Bool.false_eq_true, if_false, List.length_cons,
    List.length_nil, hc, List.map_cons, List.map_nil, hd0, hd1, nth_element_by_sort]
  norm_num [List.insertionSort, List.orderedInsert]

theorem FindNNIndexF_lowest_argmin_witness :
    1 ≤ [(⟨![-1]⟩ : Point 1), ⟨![-1 + 1 / 16777216]⟩].length ∧ FiniteRounding round_f32 ∧
      Voronoi.FindNNIndexF round_f32 ⟨[(⟨![-1]⟩ : Point 1), ⟨![-1 + 1 / 16777216]⟩]⟩ ⟨![1]⟩ = 0 ∧
      ∃ s, [(⟨![-1]⟩ : Point 1), ⟨![-1 + 1 / 16777216]⟩][
            Voronoi.FindNNIndexF round_f32
              ⟨[(⟨![-1]⟩ : Point 1), ⟨![-1 + 1 / 16777216]⟩]⟩ ⟨![1]⟩]? = some s ∧
        ∀ t ∈ [(⟨![-1]⟩ : Point 1), ⟨![-1 + 1 / 16777216]⟩],
          s.DistF round_f32 ⟨![1]⟩ ≤ t.DistF round_f32 ⟨![1]⟩ := by
  have h := FindNNIndexF_lowest_argmin round_f32
    ⟨[(⟨![-1]⟩ : Point 1), ⟨![-1 + 1 / 16777216]⟩]⟩ ⟨![1]⟩ (by decide) round_f32_finite
    (by
      intro s hs
      simp only [List.mem_cons, List.mem_singleton, List.not_mem_nil, or_false] at hs
      rcases hs with rfl | rfl
      · simp [Point.Norm, Point.NormStep, List.ofFn_succ]
      · simp [Point.Norm, Point.NormStep, List.ofFn_succ]
        norm_num [abs_of_neg])
    (by
      intro i
      fin_cases i
      simp [FLT_MAX])
  obtain ⟨s, hs, hmin, _⟩ := h.2
  exact ⟨by decide, round_f32_finite, FindNNIndexF_tie, s, hs, hmin⟩

theorem calc_medianF_is_sorted_middle_witness :
    NthElementPost nth_element_by_sort ∧ [(⟨![0]⟩ : Point 1), ⟨![0]⟩, ⟨![1]⟩] ≠ [] ∧
      round_f32 (([(⟨![0]⟩ : Point 1), ⟨![0]⟩, ⟨![1]⟩].length : ℕ) : ℚ) ≠ 0 ∧
      calc_medianF round_f32 nth_element_by_sort [(⟨![0]⟩ : Point 1), ⟨![0]⟩, ⟨![1]⟩] =
        some (11184811 / 33554432) ∧
      ∃ center m,
        centerLoopF round_f32 3 [(⟨![0]⟩ : Point 1), ⟨![0]⟩, ⟨![1]⟩] (ZeroPoint 1) =
            some center ∧
          calc_medianF round_f32 nth_element_by_sort [(⟨![0]⟩ : Point 1), ⟨![0]⟩, ⟨![1]⟩] =
            some m := by
  have h3 : round_f32 (([(⟨![0]⟩ : Point 1), ⟨![0]⟩, ⟨![1]⟩].length : ℕ) : ℚ) ≠ 0 := by
    rw [show (([(⟨![0]⟩ : Point 1), ⟨![0]⟩, ⟨![1]⟩].length : ℕ) : ℚ) = 3 by norm_num,
      round_f32_three]
    norm_num
  obtain ⟨center, m, hc, hm, _⟩ := (calc_medianF_is_sorted_middle round_f32
    nth_element_by_sort [(⟨![0]⟩ : Point 1), ⟨![0]⟩, ⟨![1]⟩] nth_element_by_sort_post
    (by simp) h3).1
  exact ⟨nth_element_by_sort_post, by simp, h3, calc_medianF_thirds, center, m, hc, hm⟩

end VoronoiSpec
